import Mathlib

/-!
# Verification of the k8sops session core

A shallow embedding, in Lean 4, of the core components of the
`cbx-agent-k8sops` repository:

* `k8sops/mcp_client/client.py` — the MCP tool connection (`MCPClient`),
* `k8sops/memory/manager.py` — the context-memory manager (`MemoryManager`),
* `k8sops/session/agent_session.py` — the session controller (`AgentSession`),
* `k8sops/session/store.py` and `k8sops/session/file_store.py` — the two
  session-metadata store backends.

Python objects become Lean structures; `async` methods become pure state
transformers (the cooperative single-scheduler model of the source means a
method body runs atomically between awaits, and every await is made explicit
here through oracle parameters: the LLM, the JSON parser, the wall clock).
Exceptions become `Except` / `Option` values.  Machine details that the
source leaves to libraries (Redis, the filesystem, JSON serialisation) are
modelled at the data level: a Redis database is its key/value, sorted-set
and list contents; a JSONL file is its list of parsed records (the JSON
round-trip on the records used here is injective).
-/

set_option maxHeartbeats 1000000

namespace K8sOps

/-! ## MCP client (`src/k8sops/mcp_client/client.py`)

`MCPClient` synchronises a background connection task with the caller via
two one-shot `asyncio.Event`s.  An `Option Bool` models an event attribute:
`none` = attribute is `None`, `some b` = an event object whose flag is `b`.
The handshake body (`_run_stdio_connection` / `_run_http_connection` up to
the point where the ready event fires) is abstracted by a
`HandshakeOutcome`: either it succeeds, assigning `self.session`,
`self._tools` and `self._langchain_tools` and setting the ready event, or it
raises at some point, possibly after `self.session` was already assigned.
-/

structure ToolDef where
  name : String
  description : String
  inputSchema : String
deriving DecidableEq, Repr

inductive PyError where
  | runtimeError (msg : String)
  | valueError (msg : String)
  | otherError (descr : String)
deriving DecidableEq, Repr

structure MCPClientState where
  session : Option Nat              -- `self.session` (abstract ClientSession handle)
  tools : List ToolDef              -- `self._tools`
  langchainTools : List Nat         -- `self._langchain_tools` (abstract BaseTool handles)
  connectionTask : Option Unit      -- `self._connection_task`
  stopEvent : Option Bool           -- `self._stop_event` (`some b`: event with flag `b`)
  readyEvent : Option Bool          -- `self._ready_event`
  error : Option PyError            -- `self._error`
deriving DecidableEq, Repr

/-- The state of a freshly constructed `MCPClient` (end of `__init__`). -/
def initialClient : MCPClientState :=
  { session := none, tools := [], langchainTools := [], connectionTask := none,
    stopEvent := none, readyEvent := none, error := none }

inductive HandshakeOutcome where
  | ok (sessionHandle : Nat) (tools : List ToolDef) (langchainTools : List Nat)
  | fail (sessionAssigned : Option Nat) (e : PyError)

/-- `event.set()` on an `asyncio.Event` attribute (only ever reached when the
attribute holds an event object). -/
def setEvent : Option Bool → Option Bool
  | some _ => some true
  | none => none

/-- The body of `_run_connection`'s `try:` block — one of the two transport
bodies, run up to the point where either the ready event has been set (success)
or an exception escapes (second component `some e`).  On success the session,
the discovered tools and the pre-loaded LangChain tools are assigned and the
ready event fires; on failure the session may or may not have been assigned
before the raise. -/
def connectionBody (st : MCPClientState) (o : HandshakeOutcome) :
    MCPClientState × Option PyError :=
  match o with
  | .ok h tls lc =>
      ({ st with session := some h, tools := tls, langchainTools := lc,
                 readyEvent := setEvent st.readyEvent }, none)
  | .fail sa e =>
      (match sa with
       | some h => ({ st with session := some h }, some e)
       | none => (st, some e))

/-- `_run_connection`: runs the body under `try/except Exception`; the except
branch records the error and sets the ready event.  The second component is
the exception (if any) propagating out of the background task to its caller —
the `except` clause swallows it, so it is always `none`. -/
def runConnection (st : MCPClientState) (o : HandshakeOutcome) :
    MCPClientState × Option PyError :=
  let (st1, exc) := connectionBody st o
  match exc with
  | none => (st1, none)
  | some e => ({ st1 with error := some e, readyEvent := setEvent st1.readyEvent }, none)

/-- The prefix of `connect()` before the await: fresh unset stop/ready events,
cleared error, task spawned. -/
def connectPrep (st : MCPClientState) : MCPClientState :=
  { st with stopEvent := some false, readyEvent := some false, error := none,
            connectionTask := some () }

/-- `connect()`: prepares the events, lets the background task run to its
ready point, then — after `await self._ready_event.wait()` — re-raises a
captured error or returns `self._tools`. -/
def connect (st : MCPClientState) (o : HandshakeOutcome) :
    MCPClientState × Except PyError (List ToolDef) :=
  let st1 := connectPrep st
  let (st2, _) := runConnection st1 o
  match st2.error with
  | some e => (st2, .error e)
  | none => (st2, .ok st2.tools)

/-- `disconnect()`: fires the stop event (if present), awaits / force-cancels
the background task, then unconditionally resets the connection state.
`self._error` is not touched by `disconnect` (only `connect` clears it). -/
def disconnect (st : MCPClientState) : MCPClientState :=
  { st with session := none, tools := [], langchainTools := [],
            connectionTask := none, stopEvent := none, readyEvent := none }

inductive ToolContent where
  | textContent (text : String)      -- a content block with a `.text` attribute
  | otherContent (asStr : String)    -- any other block, via `str(...)`
deriving DecidableEq, Repr

structure ToolResult where
  content : List ToolContent
deriving DecidableEq, Repr

def toolContentText : ToolContent → String
  | .textContent t => t
  | .otherContent s => s

/-- The message of the `RuntimeError` that `call_tool` raises with no live
session — the error the specification names `NotConnectedError`. -/
def notConnectedMessage : String := "Not connected to MCP server"

/-- `call_tool(name, arguments)`: raises when `self.session` is falsy,
otherwise extracts the text of the first content block of the result the
live session returns (`res` is the oracle for `session.call_tool`). -/
def callTool (st : MCPClientState) (_name : String)
    (_arguments : List (String × String)) (res : ToolResult) :
    Except PyError String :=
  match st.session with
  | none => .error (.runtimeError notConnectedMessage)
  | some _ =>
      match res.content with
      | [] => .ok ""
      | c :: _ => .ok (toolContentText c)

/-- The `tools` property returns `self._tools`. -/
def toolsProperty (st : MCPClientState) : List ToolDef := st.tools

/-- `get_langchain_tools()` returns `self._langchain_tools`. -/
def getLangchainTools (st : MCPClientState) : List Nat := st.langchainTools

/-- C1: on every handshake outcome — successful tool discovery or any
exception raised inside the background connection task — the ready event ends
up set (so `connect()`'s single wait terminates), the background task
propagates no exception to its caller, and `connect()` either returns the
discovered tool definitions (no captured error) or raises exactly the
captured handshake error. -/
theorem connect_ready_signal_contract (st : MCPClientState) (o : HandshakeOutcome) :
    (runConnection (connectPrep st) o).1.readyEvent = some true ∧
    (runConnection (connectPrep st) o).2 = none ∧
    (match o with
     | .ok _ tls _ => (connect st o).2 = .ok tls
     | .fail _ e => (connect st o).2 = .error e) := by
  rcases o with ⟨h, tls, lc⟩ | ⟨sa, e⟩
  · exact ⟨rfl, rfl, rfl⟩
  · cases sa <;> exact ⟨rfl, rfl, rfl⟩

/-- C7: `call_tool` raises the not-connected `RuntimeError` whenever it is
invoked on a client on which `connect()` has not completed (the freshly
constructed state) or after `disconnect()` has returned — both states have
`self.session = None`. -/
theorem callTool_raises_when_not_connected (st : MCPClientState) (n : String)
    (a : List (String × String)) (r : ToolResult) :
    callTool initialClient n a r = .error (.runtimeError notConnectedMessage) ∧
    callTool (disconnect st) n a r = .error (.runtimeError notConnectedMessage) := by
  exact ⟨rfl, rfl⟩

/-- C10: `disconnect()` always returns with the client reset to its
pre-connect shape — `session = None`, empty `tools` property, empty
`get_langchain_tools()`, task and both one-shot events cleared — including
when called with no prior `connect()` (it fixes the initial state) or twice
in a row (idempotent), and `call_tool` after `disconnect()` raises. -/
theorem disconnect_resets_client (st : MCPClientState) (n : String)
    (a : List (String × String)) (r : ToolResult) :
    (disconnect st).session = none ∧
    toolsProperty (disconnect st) = [] ∧
    getLangchainTools (disconnect st) = [] ∧
    (disconnect st).connectionTask = none ∧
    (disconnect st).stopEvent = none ∧
    (disconnect st).readyEvent = none ∧
    disconnect initialClient = initialClient ∧
    disconnect (disconnect st) = disconnect st ∧
    callTool (disconnect st) n a r = .error (.runtimeError notConnectedMessage) := by
  exact ⟨rfl, rfl, rfl, rfl, rfl, rfl, rfl, rfl, rfl⟩

/-! ## Memory manager (`src/k8sops/memory/manager.py`)

`MemoryManager` wraps an LLM and a long-term store.  The LLM
(`self.llm.ainvoke`), `json.loads`, and `uuid4()` are oracles; the Redis
long-term store is modelled by the ordered list of `aput(namespace, key,
value)` writes.  Timestamps are a counter.  Python floats in the settings
(`context_threshold`) are modelled as exact rationals; the values exercised
below (`3/4` = `0.75`, the field's default) are exactly representable in
binary floating point, so the model and CPython agree on them. -/

/-- `k8sops.session.Message` (`agent_session.py`). -/
structure Message where
  role : String
  content : String
deriving DecidableEq, Repr

/-- An exactly-representable non-negative Python float, as the fraction
`num / den`.  The only float the memory manager reads is
`context_threshold`, whose default `0.75` is exactly `3 / 4` in binary
floating point, so CPython's float arithmetic and the exact fraction agree
on the values exercised here. -/
structure PyFloat where
  num : Nat
  den : Nat
deriving DecidableEq, Repr

/-- The fields of `MemorySettings` (`config/settings.py`) that
`MemoryManager` reads. -/
structure MemorySettings where
  userId : String
  useLongTerm : Bool
  maxContextTokens : Nat
  contextThreshold : PyFloat
  maxMemories : Nat
deriving DecidableEq, Repr

/-- The `content` dict passed to `store_memory`, in the two shapes the source
builds: the `conversation_summary` dict of `summarize_and_trim`, and the
single-field dict of `_extract_memories_from_messages`. -/
inductive MemContent where
  | conversationSummary (summary : String) (messageCount : Nat) (sourceSession : String)
  | simpleContent (content : String)
deriving DecidableEq, Repr

/-- The value written by `store_memory`: the content dict merged with the
bookkeeping fields. -/
structure StoredMemoryValue where
  memoryType : String
  content : MemContent
  tags : List String
  sourceSession : String
  timestamp : Nat
deriving DecidableEq, Repr

/-- One element of the JSON array the extraction prompt asks the model for:
either a JSON object (whose `content`, `type` and `tags` members may each be
present or absent) or a non-object array element. -/
inductive ExtractedMemory where
  | dictMem (content : Option String) (memType : Option String) (tags : Option (List String))
  | nonDict (descr : String)
deriving DecidableEq, Repr

structure MemoryManagerState where
  sessionId : String
  settings : MemorySettings
  isInit : Bool                                 -- `self._initialized`
  lastExtractedIndex : Nat                      -- `self._last_extracted_index`
  store : List (String × StoredMemoryValue)     -- `self._store.aput` writes, in order
  llmCalls : Nat                                -- number of `self.llm.ainvoke` calls so far
  uuidCount : Nat                               -- number of `uuid4()` draws so far
  clock : Nat                                   -- `datetime.now` counter
deriving DecidableEq, Repr

/-- `self._extraction_interval = 5` (`manager.py`, `__init__`). -/
def extractionInterval : Nat := 5

/-- The oracles standing for the external libraries the manager awaits on. -/
structure PyOracles where
  llm : String → String                               -- `llm.ainvoke(prompt).content`
  jsonLoadsArr : String → Option (List ExtractedMemory) -- `json.loads`; `none` = `JSONDecodeError`
  uuidHex8 : Nat → String                             -- `uuid4().hex[:8]`, n-th draw

def invokeLLM (mm : MemoryManagerState) (ora : PyOracles) (prompt : String) :
    MemoryManagerState × String :=
  ({ mm with llmCalls := mm.llmCalls + 1 }, ora.llm prompt)

/-- `count_tokens`: total character count of the contents, integer-divided
by 4. -/
def countTokens (msgs : List Message) : Nat :=
  (msgs.map (fun m => m.content.length)).sum / 4

/-- `should_summarize`.  The threshold is
`int(max_context_tokens * context_threshold)`; for a non-negative exact
fraction, CPython's `int()` truncation of the product equals the floored
natural division `(max * num) / den`. -/
def shouldSummarize (mm : MemoryManagerState) (msgs : List Message) : Bool :=
  if !mm.isInit then false
  else
    let tokenCount := countTokens msgs
    let threshold :=
      mm.settings.maxContextTokens * mm.settings.contextThreshold.num /
        mm.settings.contextThreshold.den
    decide (threshold < tokenCount)

/-- `should_extract`: unseen messages reach the extraction interval.  In
Python `len(messages) - self._last_extracted_index` can be negative, in which
case it is `< interval` just as the truncated `Nat` subtraction is. -/
def shouldExtract (mm : MemoryManagerState) (msgs : List Message) : Bool :=
  if !mm.isInit then false
  else decide (extractionInterval ≤ msgs.length - mm.lastExtractedIndex)

/-- `"\n".join(f"{m.role.upper()}: {m.content}" ...)`. -/
def formatMessagesForLLM (msgs : List Message) : String :=
  String.intercalate "\n" (msgs.map fun m => m.role.toUpper ++ ": " ++ m.content)

/-- `SUMMARIZATION_PROMPT.format(messages=formatted)` (`memory/prompts.py`). -/
def summarizationPromptText (formatted : String) : String :=
  "Summarize the following conversation between a user and a Kubernetes operations assistant.\n\nPreserve the following information:\n- Key decisions made\n- Important facts discovered about the cluster/environment\n- Actions taken and their outcomes (commands run, results)\n- Any unresolved issues or pending tasks\n\nBe concise but comprehensive. Focus on information that would be useful for continuing the conversation.\n\nConversation:\n"
    ++ formatted ++ "\n\nSummary:"

/-- `MEMORY_EXTRACTION_PROMPT.format(messages=formatted)` (`memory/prompts.py`),
abbreviated to its head and tail around the session text. -/
def memoryExtractionPromptText (formatted : String) : String :=
  "Analyze this K8sOps troubleshooting session and extract key learnings for future reference.\n\nReturn a JSON array of memory objects.\n\nSession:\n"
    ++ formatted ++ "\n\nJSON array of memories:"

/-- `store_memory`: no-op returning `""` when uninitialized; otherwise writes
the merged value under a `f"{memory_type}_{uuid4().hex[:8]}"` key. -/
def storeMemory (mm : MemoryManagerState) (ora : PyOracles) (memoryType : String)
    (content : MemContent) (tags : List String) : MemoryManagerState × String :=
  if !mm.isInit then (mm, "")
  else
    let key := memoryType ++ "_" ++ ora.uuidHex8 mm.uuidCount
    let value : StoredMemoryValue :=
      { memoryType := memoryType, content := content, tags := tags,
        sourceSession := mm.sessionId, timestamp := mm.clock }
    ({ mm with store := mm.store ++ [(key, value)],
               uuidCount := mm.uuidCount + 1, clock := mm.clock + 1 }, key)

/-- Python `str.find(sub)` for a single-character pattern. -/
def pyFindChar (s : String) (c : Char) : Option Nat :=
  s.data.findIdx? (· == c)

/-- Python `str.rfind(sub)` for a single-character pattern. -/
def pyRFindChar (s : String) (c : Char) : Option Nat :=
  match s.data.reverse.findIdx? (· == c) with
  | none => none
  | some i => some (s.data.length - 1 - i)

/-- Python `s[a:b]` on non-negative bounds, by code points. -/
def pySliceChars (s : String) (a b : Nat) : String :=
  ⟨(s.data.drop a).take (b - a)⟩

/-- The defensive JSON-array location and parse of
`_extract_memories_from_messages`: locate the first `[` and the last `]`,
parse the slice, treat parse failure or a missing array as zero memories. -/
def parseMemoryArray (ora : PyOracles) (responseText : String) : List ExtractedMemory :=
  let jsonStart : Int := match pyFindChar responseText '[' with
    | some i => (i : Int)
    | none => -1
  let jsonEnd : Int := (match pyRFindChar responseText ']' with
    | some i => (i : Int)
    | none => -1) + 1
  if 0 ≤ jsonStart ∧ jsonStart < jsonEnd then
    match ora.jsonLoadsArr (pySliceChars responseText jsonStart.toNat jsonEnd.toNat) with
    | some arr => arr
    | none => []
  else []

/-- The storing loop of `_extract_memories_from_messages`: each parsed array
element that is an object containing `content` is stored and collected. -/
def storeExtractedLoop (ora : PyOracles) (mm : MemoryManagerState) :
    List ExtractedMemory → MemoryManagerState × List ExtractedMemory
  | [] => (mm, [])
  | m :: rest =>
      match m with
      | .dictMem (some c) mt tags =>
          let mm1 := (storeMemory mm ora (mt.getD "semantic") (.simpleContent c) (tags.getD [])).1
          let r := storeExtractedLoop ora mm1 rest
          (r.1, m :: r.2)
      | _ => storeExtractedLoop ora mm rest

/-- `_extract_memories_from_messages`. -/
def extractFromMessages (ora : PyOracles) (mm : MemoryManagerState)
    (msgs : List Message) : MemoryManagerState × List ExtractedMemory :=
  if msgs.isEmpty then (mm, [])
  else
    let formatted := formatMessagesForLLM msgs
    let r := invokeLLM mm ora (memoryExtractionPromptText formatted)
    let memories := parseMemoryArray ora r.2
    storeExtractedLoop ora r.1 memories

/-- `extract_incremental`. -/
def extractIncremental (ora : PyOracles) (mm : MemoryManagerState)
    (msgs : List Message) : MemoryManagerState × List ExtractedMemory :=
  if !mm.isInit then (mm, [])
  else
    let newMessages := msgs.drop mm.lastExtractedIndex
    if newMessages.isEmpty then (mm, [])
    else if newMessages.length < extractionInterval then (mm, [])
    else
      let r := extractFromMessages ora mm newMessages
      ({ r.1 with lastExtractedIndex := msgs.length }, r.2)

/-- `extract_remaining`. -/
def extractRemaining (ora : PyOracles) (mm : MemoryManagerState)
    (msgs : List Message) : MemoryManagerState × List ExtractedMemory :=
  if !mm.isInit then (mm, [])
  else
    let newMessages := msgs.drop mm.lastExtractedIndex
    if newMessages.isEmpty then (mm, [])
    else
      let r := extractFromMessages ora mm newMessages
      ({ r.1 with lastExtractedIndex := msgs.length }, r.2)

/-- `summarize_and_trim`.  Python `messages[:-keep_recent]` /
`messages[-keep_recent:]` for `keep_recent = 0` are `[]` and the whole list
(`-0 == 0`); for `0 < keep_recent < len` they drop/keep the last
`keep_recent` elements. -/
def summarizeAndTrim (ora : PyOracles) (mm : MemoryManagerState)
    (msgs : List Message) (keepRecent : Nat) :
    MemoryManagerState × List Message × String :=
  if msgs.length ≤ keepRecent then (mm, msgs, "")
  else
    let toSummarize := if keepRecent = 0 then [] else msgs.take (msgs.length - keepRecent)
    let toKeep := if keepRecent = 0 then msgs else msgs.drop (msgs.length - keepRecent)
    let formatted := formatMessagesForLLM toSummarize
    let r := invokeLLM mm ora (summarizationPromptText formatted)
    let summary := r.2
    let mm2 := (storeMemory r.1 ora "episodic"
        (.conversationSummary summary toSummarize.length mm.sessionId)
        ["summary", "context_management"]).1
    let summaryMessage : Message :=
      { role := "assistant",
        content := "[Previous conversation summary: " ++ summary ++ "]" }
    (mm2, summaryMessage :: toKeep, summary)

/-! ### Bookkeeping lemmas for the memory manager -/

theorem storeMemory_isInit (mm : MemoryManagerState) (ora : PyOracles)
    (t : String) (c : MemContent) (g : List String) :
    (storeMemory mm ora t c g).1.isInit = mm.isInit := by
  unfold storeMemory; split <;> rfl

theorem storeMemory_lastExtractedIndex (mm : MemoryManagerState) (ora : PyOracles)
    (t : String) (c : MemContent) (g : List String) :
    (storeMemory mm ora t c g).1.lastExtractedIndex = mm.lastExtractedIndex := by
  unfold storeMemory; split <;> rfl

theorem storeExtractedLoop_isInit (ora : PyOracles) (l : List ExtractedMemory) :
    ∀ mm : MemoryManagerState, (storeExtractedLoop ora mm l).1.isInit = mm.isInit := by
  induction l with
  | nil => intro mm; rfl
  | cons m rest ih =>
    intro mm
    match m with
    | .dictMem (some c) mt tg =>
        simp only [storeExtractedLoop]
        rw [ih, storeMemory_isInit]
    | .dictMem none mt tg => exact ih mm
    | .nonDict d => exact ih mm

theorem storeExtractedLoop_lastExtractedIndex (ora : PyOracles) (l : List ExtractedMemory) :
    ∀ mm : MemoryManagerState,
      (storeExtractedLoop ora mm l).1.lastExtractedIndex = mm.lastExtractedIndex := by
  induction l with
  | nil => intro mm; rfl
  | cons m rest ih =>
    intro mm
    match m with
    | .dictMem (some c) mt tg =>
        simp only [storeExtractedLoop]
        rw [ih, storeMemory_lastExtractedIndex]
    | .dictMem none mt tg => exact ih mm
    | .nonDict d => exact ih mm

theorem extractFromMessages_isInit (ora : PyOracles) (mm : MemoryManagerState)
    (msgs : List Message) : (extractFromMessages ora mm msgs).1.isInit = mm.isInit := by
  unfold extractFromMessages
  split
  · rfl
  · rw [storeExtractedLoop_isInit]; rfl

theorem extractFromMessages_lastExtractedIndex (ora : PyOracles) (mm : MemoryManagerState)
    (msgs : List Message) :
    (extractFromMessages ora mm msgs).1.lastExtractedIndex = mm.lastExtractedIndex := by
  unfold extractFromMessages
  split
  · rfl
  · rw [storeExtractedLoop_lastExtractedIndex]; rfl

/-! ### Shared concrete instances for witnesses and counterexamples -/

/-- A concrete oracle assignment: a constant model answer (containing no JSON
array), a parser that never succeeds, numbered uuid draws. -/
def oraEx : PyOracles :=
  { llm := fun _ => "the summary", jsonLoadsArr := fun _ => none,
    uuidHex8 := fun n => toString n }

/-- Concrete memory settings: `MEMORY_MAX_CONTEXT_TOKENS=4` with the default
`MEMORY_CONTEXT_THRESHOLD=0.75` (exactly `3/4` in binary floating point). -/
def memSettingsEx : MemorySettings :=
  { userId := "default", useLongTerm := true, maxContextTokens := 4,
    contextThreshold := { num := 3, den := 4 }, maxMemories := 5 }

/-- An initialized memory manager at the start of a session. -/
def mmEx : MemoryManagerState :=
  { sessionId := "sess", settings := memSettingsEx, isInit := true,
    lastExtractedIndex := 0, store := [], llmCalls := 0, uuidCount := 0, clock := 0 }

/-- `n` user messages of four characters each. -/
def msgsN (n : Nat) : List Message :=
  (List.range n).map (fun _ => { role := "user", content := "aaaa" })

/-! ### C4 — `summarize_and_trim` -/

/-- C4 (counterexample to the claim as stated): for `keep_recent = 0` and a
five-message list (`len = k + 5` with `k = 0`), `summarize_and_trim` returns
six messages — the synthetic summary **prepended to all five originals**,
because Python's `messages[:-0]` is empty and `messages[-0:]` is the whole
list — not the claimed `k + 1 = 1` message. -/
theorem summarizeAndTrim_keepRecent_zero_counterexample :
    (summarizeAndTrim oraEx mmEx (msgsN 5) 0).2.1.length = 6 ∧
    ¬ (summarizeAndTrim oraEx mmEx (msgsN 5) 0).2.1.length = 0 + 1 := by
  constructor
  · rfl
  · decide

/-- C4 (amended: `keep_recent ≥ 1`): `summarize_and_trim(messages, k)` with
`len(messages) ≤ k` returns the input list unchanged, an empty summary, and an
unchanged manager state (no model call, no store write); with `1 ≤ k`,
`len(messages) = k + 5` and an initialized manager it returns exactly `k + 1`
messages — one synthetic assistant message whose content is
`"[Previous conversation summary: " ++ summary ++ "]"` followed by the last
`k` originals in order — and appends the summary to the long-term store as an
episodic memory. -/
theorem summarizeAndTrim_contract (ora : PyOracles) (mm : MemoryManagerState)
    (msgs : List Message) (k : Nat) :
    (msgs.length ≤ k → summarizeAndTrim ora mm msgs k = (mm, msgs, "")) ∧
    (1 ≤ k → msgs.length = k + 5 → mm.isInit = true →
      (summarizeAndTrim ora mm msgs k).2.1 =
        { role := "assistant",
          content := "[Previous conversation summary: " ++
            (summarizeAndTrim ora mm msgs k).2.2 ++ "]" } :: msgs.drop 5 ∧
      (summarizeAndTrim ora mm msgs k).2.1.length = k + 1 ∧
      (summarizeAndTrim ora mm msgs k).1.store =
        mm.store ++ [("episodic_" ++ ora.uuidHex8 mm.uuidCount,
          { memoryType := "episodic",
            content := .conversationSummary ((summarizeAndTrim ora mm msgs k).2.2) 5 mm.sessionId,
            tags := ["summary", "context_management"],
            sourceSession := mm.sessionId, timestamp := mm.clock })]) := by
  constructor
  · intro h
    simp only [summarizeAndTrim, if_pos h]
  · intro hk hlen hinit
    have hnot : ¬ msgs.length ≤ k := by omega
    have hkz : ¬ (k = 0) := by omega
    have hd : msgs.length - k = 5 := by omega
    have htk : (msgs.take 5).length = 5 := by
      rw [List.length_take]; omega
    simp only [summarizeAndTrim, if_neg hnot, if_neg hkz, hd, invokeLLM, storeMemory,
      hinit, Bool.not_true, Bool.false_eq_true, if_false, htk]
    refine ⟨by trivial, ?_, by trivial⟩
    simp only [List.length_cons, List.length_drop]
    omega

/-- C4 witness: the amended theorem applied at `k = 4`, a nine-message list
(trim path, `k + 1 = 5` results) and at `k = 4`, a three-message list (no-op
path). -/
theorem summarizeAndTrim_contract_witness :
    (summarizeAndTrim oraEx mmEx (msgsN 9) 4).2.1.length = 4 + 1 ∧
    summarizeAndTrim oraEx mmEx (msgsN 3) 4 = (mmEx, msgsN 3, "") := by
  refine ⟨((summarizeAndTrim_contract oraEx mmEx (msgsN 9) 4).2
      (by decide) (by decide) (by rfl)).2.1,
    (summarizeAndTrim_contract oraEx mmEx (msgsN 3) 4).1 (by decide)⟩

/-! ### C8 — idempotence of `extract_incremental` with no new messages -/

/-- C8: calling `extract_incremental` twice on the same message list — with
the second call seeing the state the first call produced — makes the second
call a complete no-op: it returns an empty extraction and the unchanged
state, hence zero model calls, zero store writes, and an unchanged
`_last_extracted_index`. -/
theorem extractIncremental_idempotent (ora : PyOracles) (mm : MemoryManagerState)
    (msgs : List Message) :
    extractIncremental ora (extractIncremental ora mm msgs).1 msgs =
      ((extractIncremental ora mm msgs).1, []) ∧
    (extractIncremental ora (extractIncremental ora mm msgs).1 msgs).1.llmCalls =
      (extractIncremental ora mm msgs).1.llmCalls ∧
    (extractIncremental ora (extractIncremental ora mm msgs).1 msgs).1.store =
      (extractIncremental ora mm msgs).1.store ∧
    (extractIncremental ora (extractIncremental ora mm msgs).1 msgs).2 = [] ∧
    (extractIncremental ora (extractIncremental ora mm msgs).1 msgs).1.lastExtractedIndex =
      (extractIncremental ora mm msgs).1.lastExtractedIndex := by
  have main : extractIncremental ora (extractIncremental ora mm msgs).1 msgs =
      ((extractIncremental ora mm msgs).1, []) := by
    cases hinit : mm.isInit with
    | false =>
        have h1 : extractIncremental ora mm msgs = (mm, []) := by
          simp [extractIncremental, hinit]
        rw [h1]
        simp [extractIncremental, hinit]
    | true =>
        by_cases hemp : (msgs.drop mm.lastExtractedIndex).isEmpty
        · have h1 : extractIncremental ora mm msgs = (mm, []) := by
            simp only [extractIncremental, hinit, Bool.not_true, Bool.false_eq_true,
              if_false, hemp, if_true]
          rw [h1]
          simp only [extractIncremental, hinit, Bool.not_true, Bool.false_eq_true,
            if_false, hemp, if_true]
        · by_cases hlt : (msgs.drop mm.lastExtractedIndex).length < extractionInterval
          · have h1 : extractIncremental ora mm msgs = (mm, []) := by
              simp only [extractIncremental, hinit, Bool.not_true, Bool.false_eq_true,
                if_false, hemp, if_true, if_pos hlt]
            rw [h1]
            simp only [extractIncremental, hinit, Bool.not_true, Bool.false_eq_true,
              if_false, hemp, if_true, if_pos hlt]
          · have h1 : extractIncremental ora mm msgs =
                ({ (extractFromMessages ora mm (msgs.drop mm.lastExtractedIndex)).1 with
                    lastExtractedIndex := msgs.length },
                  (extractFromMessages ora mm (msgs.drop mm.lastExtractedIndex)).2) := by
              simp only [extractIncremental, hinit, Bool.not_true, Bool.false_eq_true,
                if_false, hemp, if_true, if_neg hlt]
            rw [h1]
            have hinit2 : (extractFromMessages ora mm
                (msgs.drop mm.lastExtractedIndex)).1.isInit = true := by
              rw [extractFromMessages_isInit]; exact hinit
            simp only [extractIncremental, hinit2, Bool.not_true, Bool.false_eq_true,
              if_false, List.drop_length, List.isEmpty_nil, if_true]
  exact ⟨main, by rw [main], by rw [main], by rw [main], by rw [main]⟩

/-! ### C2 — the extraction watermark across session operations

The operations of one session that touch the message list or the watermark,
at their `AgentSession` call sites: appending a message during
`send_message`, `_maybe_extract_memories` (gated by `should_extract`),
`extract_remaining` at `cleanup` (gated on a non-empty message list), and
`_check_context_limit` (gated by `should_summarize`, replacing
`self.messages` by the trimmed list, `keep_recent = 4` by default). -/

inductive SessionOp where
  | appendMessage (m : Message)
  | maybeExtract
  | extractAtCleanup
  | checkContextLimit
deriving DecidableEq, Repr

structure ConvState where
  messages : List Message
  mm : MemoryManagerState
deriving DecidableEq, Repr

def stepSessionOp (ora : PyOracles) (st : ConvState) : SessionOp → ConvState
  | .appendMessage m => { st with messages := st.messages ++ [m] }
  | .maybeExtract =>
      if shouldExtract st.mm st.messages then
        { st with mm := (extractIncremental ora st.mm st.messages).1 }
      else st
  | .extractAtCleanup =>
      if st.messages.isEmpty then st
      else { st with mm := (extractRemaining ora st.mm st.messages).1 }
  | .checkContextLimit =>
      if shouldSummarize st.mm st.messages then
        { st with mm := (summarizeAndTrim ora st.mm st.messages 4).1,
                  messages := (summarizeAndTrim ora st.mm st.messages 4).2.1 }
      else st

def runSessionOps (ora : PyOracles) (st : ConvState) (ops : List SessionOp) : ConvState :=
  ops.foldl (stepSessionOp ora) st

theorem extractIncremental_watermark_le (ora : PyOracles) (mm : MemoryManagerState)
    (msgs : List Message) :
    mm.lastExtractedIndex ≤ (extractIncremental ora mm msgs).1.lastExtractedIndex := by
  simp only [extractIncremental]
  split
  · exact le_refl _
  split
  · exact le_refl _
  split
  · exact le_refl _
  · next hemp _ =>
      have : ¬ (msgs.length ≤ mm.lastExtractedIndex) := by
        intro hle
        exact hemp (by simp [List.isEmpty_iff, List.drop_eq_nil_iff, hle])
      simp only []
      omega

theorem extractRemaining_watermark_le (ora : PyOracles) (mm : MemoryManagerState)
    (msgs : List Message) :
    mm.lastExtractedIndex ≤ (extractRemaining ora mm msgs).1.lastExtractedIndex := by
  simp only [extractRemaining]
  split
  · exact le_refl _
  split
  · exact le_refl _
  · next _ hemp =>
      have : ¬ (msgs.length ≤ mm.lastExtractedIndex) := by
        intro hle
        exact hemp (by simp [List.isEmpty_iff, List.drop_eq_nil_iff, hle])
      simp only []
      omega

theorem extractIncremental_watermark_le_len (ora : PyOracles) (mm : MemoryManagerState)
    (msgs : List Message) (h : mm.lastExtractedIndex ≤ msgs.length) :
    (extractIncremental ora mm msgs).1.lastExtractedIndex ≤ msgs.length := by
  simp only [extractIncremental]
  split
  · exact h
  split
  · exact h
  split
  · exact h
  · exact le_refl _

theorem extractRemaining_watermark_le_len (ora : PyOracles) (mm : MemoryManagerState)
    (msgs : List Message) (h : mm.lastExtractedIndex ≤ msgs.length) :
    (extractRemaining ora mm msgs).1.lastExtractedIndex ≤ msgs.length := by
  simp only [extractRemaining]
  split
  · exact h
  split
  · exact h
  · exact le_refl _

theorem summarizeAndTrim_lastExtractedIndex (ora : PyOracles) (mm : MemoryManagerState)
    (msgs : List Message) (k : Nat) :
    (summarizeAndTrim ora mm msgs k).1.lastExtractedIndex = mm.lastExtractedIndex := by
  simp only [summarizeAndTrim]
  split
  · rfl
  · rw [storeMemory_lastExtractedIndex]; rfl

theorem stepSessionOp_watermark_mono (ora : PyOracles) (st : ConvState) (op : SessionOp) :
    st.mm.lastExtractedIndex ≤ (stepSessionOp ora st op).mm.lastExtractedIndex := by
  cases op with
  | appendMessage m => exact le_refl _
  | maybeExtract =>
      simp only [stepSessionOp]
      split
      · exact extractIncremental_watermark_le ora st.mm st.messages
      · exact le_refl _
  | extractAtCleanup =>
      simp only [stepSessionOp]
      split
      · exact le_refl _
      · exact extractRemaining_watermark_le ora st.mm st.messages
  | checkContextLimit =>
      simp only [stepSessionOp]
      split
      · rw [summarizeAndTrim_lastExtractedIndex]
      · exact le_refl _

theorem runSessionOps_watermark_mono (ora : PyOracles) (ops : List SessionOp) :
    ∀ st : ConvState,
      st.mm.lastExtractedIndex ≤ (runSessionOps ora st ops).mm.lastExtractedIndex := by
  induction ops with
  | nil => intro st; exact le_refl _
  | cons op rest ih =>
      intro st
      exact le_trans (stepSessionOp_watermark_mono ora st op) (ih (stepSessionOp ora st op))

theorem stepSessionOp_watermark_bound (ora : PyOracles) (st : ConvState) (op : SessionOp)
    (hop : op ≠ SessionOp.checkContextLimit)
    (h : st.mm.lastExtractedIndex ≤ st.messages.length) :
    (stepSessionOp ora st op).mm.lastExtractedIndex ≤
      (stepSessionOp ora st op).messages.length := by
  cases op with
  | appendMessage m =>
      simp only [stepSessionOp, List.length_append, List.length_cons, List.length_nil]
      omega
  | maybeExtract =>
      simp only [stepSessionOp]
      split
      · exact extractIncremental_watermark_le_len ora st.mm st.messages h
      · exact h
  | extractAtCleanup =>
      simp only [stepSessionOp]
      split
      · exact h
      · exact extractRemaining_watermark_le_len ora st.mm st.messages h
  | checkContextLimit => exact absurd rfl hop

theorem runSessionOps_watermark_bound (ora : PyOracles) (ops : List SessionOp) :
    ∀ st : ConvState, (∀ op ∈ ops, op ≠ SessionOp.checkContextLimit) →
      st.mm.lastExtractedIndex ≤ st.messages.length →
      (runSessionOps ora st ops).mm.lastExtractedIndex ≤
        (runSessionOps ora st ops).messages.length := by
  induction ops with
  | nil => intro st _ h; exact h
  | cons op rest ih =>
      intro st hops h
      exact ih (stepSessionOp ora st op) (fun o ho => hops o (List.mem_cons_of_mem op ho))
        (stepSessionOp_watermark_bound ora st op (hops op (List.mem_cons_self op rest)) h)

/-- C2 (counterexample to the claim as stated): starting from an initialized
manager and an empty conversation, ten four-character messages followed by
`_maybe_extract_memories` (advancing the watermark to 10) and then
`_check_context_limit` (whose `summarize_and_trim` replaces the ten messages
by five, without touching the watermark) leaves
`_last_extracted_index = 10 > 5 = len(messages)`. -/
theorem watermark_bound_counterexample :
    (runSessionOps oraEx { messages := [], mm := mmEx }
        (List.replicate 10 (SessionOp.appendMessage { role := "user", content := "aaaa" }) ++
          [SessionOp.maybeExtract, SessionOp.checkContextLimit])).mm.lastExtractedIndex = 10 ∧
    (runSessionOps oraEx { messages := [], mm := mmEx }
        (List.replicate 10 (SessionOp.appendMessage { role := "user", content := "aaaa" }) ++
          [SessionOp.maybeExtract, SessionOp.checkContextLimit])).messages.length = 5 ∧
    ¬ ((runSessionOps oraEx { messages := [], mm := mmEx }
        (List.replicate 10 (SessionOp.appendMessage { role := "user", content := "aaaa" }) ++
          [SessionOp.maybeExtract, SessionOp.checkContextLimit])).mm.lastExtractedIndex ≤
       (runSessionOps oraEx { messages := [], mm := mmEx }
        (List.replicate 10 (SessionOp.appendMessage { role := "user", content := "aaaa" }) ++
          [SessionOp.maybeExtract, SessionOp.checkContextLimit])).messages.length) := by
  refine ⟨rfl, rfl, by decide⟩

/-- C2 (amended): across every sequence of session operations the extraction
watermark `_last_extracted_index` is monotonically non-decreasing, and it
never exceeds `len(messages)` as long as the sequence contains no
summarization step — summarization may shrink the message list below an
already-advanced watermark without resetting it (see the counterexample). -/
theorem watermark_invariant (ora : PyOracles) (st0 : ConvState)
    (pre post : List SessionOp) :
    (runSessionOps ora st0 pre).mm.lastExtractedIndex ≤
      (runSessionOps ora st0 (pre ++ post)).mm.lastExtractedIndex ∧
    (st0.mm.lastExtractedIndex ≤ st0.messages.length →
      (∀ op ∈ pre, op ≠ SessionOp.checkContextLimit) →
      (runSessionOps ora st0 pre).mm.lastExtractedIndex ≤
        (runSessionOps ora st0 pre).messages.length) := by
  constructor
  · have hsplit : runSessionOps ora st0 (pre ++ post) =
        runSessionOps ora (runSessionOps ora st0 pre) post := by
      simp only [runSessionOps, List.foldl_append]
    rw [hsplit]
    exact runSessionOps_watermark_mono ora post (runSessionOps ora st0 pre)
  · intro h0 hops
    exact runSessionOps_watermark_bound ora pre st0 hops h0

/-- C2 witness: the amended invariant applied to a concrete
append/extract/append trace. -/
theorem watermark_invariant_witness :
    (runSessionOps oraEx { messages := [], mm := mmEx }
        (List.replicate 6 (SessionOp.appendMessage { role := "user", content := "hey" }) ++
          [SessionOp.maybeExtract])).mm.lastExtractedIndex ≤
      (runSessionOps oraEx { messages := [], mm := mmEx }
        (List.replicate 6 (SessionOp.appendMessage { role := "user", content := "hey" }) ++
          [SessionOp.maybeExtract])).messages.length :=
  (watermark_invariant oraEx { messages := [], mm := mmEx }
      (List.replicate 6 (SessionOp.appendMessage { role := "user", content := "hey" }) ++
        [SessionOp.maybeExtract]) []).2 (by decide) (by decide)

/-! ## Session controller (`src/k8sops/session/agent_session.py`)

### C3 — `update_settings` and the agent rebuild

`SessionSettings.model_key()` is the f-string
`f"{provider}/{model_name}/{temperature}"`; `pyFloatRepr` stands for
CPython's `str()` on the float, which is injective on float values. -/

structure SessionSettings where
  provider : String
  modelName : String
  temperature : PyFloat
  mcpServerUrl : Option String
  mcpTransport : String
  mcpSslVerify : Bool
deriving DecidableEq, Repr

def pyFloatRepr (f : PyFloat) : String :=
  toString f.num ++ "/" ++ toString f.den

def modelKeyOf (s : SessionSettings) : String :=
  s.provider ++ "/" ++ s.modelName ++ "/" ++ pyFloatRepr s.temperature

/-- The object `k8sops.models.create_model(provider, model_name, temperature)`
returns, recorded by its construction arguments. -/
structure LLMModel where
  provider : String
  modelName : String
  temperature : PyFloat
deriving DecidableEq, Repr

/-- The object `create_agent_with_mcp(model, mcp_client, checkpointer,
memory_context)` returns, recorded by its construction arguments. -/
structure AgentHandle where
  model : Option LLMModel
  mcpClientRef : Option Nat
  checkpointerRef : Option Nat
  memoryContext : String
deriving DecidableEq, Repr

/-- The `AgentSession` attributes that `update_settings` / `_create_model` /
`_create_agent` read or write. -/
structure AgentSessionState where
  sessionId : String
  settings : SessionSettings
  mcpClientRef : Option Nat       -- `self._mcp_client`
  agent : Option AgentHandle      -- `self._agent`
  checkpointer : Option Nat       -- `self._checkpointer` (opaque handle, created once)
  model : Option LLMModel         -- `self._model`
  modelKey : String               -- `self._model_key`
  agentReady : Bool
deriving DecidableEq, Repr

/-- `_create_model`: **returns immediately when `self._model` is already
set**; only otherwise does it construct a model from the current settings. -/
def createModel (s : AgentSessionState) : AgentSessionState :=
  if s.model.isSome then s
  else
    { s with model := some { provider := s.settings.provider,
                             modelName := s.settings.modelName,
                             temperature := s.settings.temperature } }

/-- `_create_agent(memory_context)`: ensures a model and (once) a
checkpointer exist, then builds the agent from `self._model`,
`self._mcp_client` and `self._checkpointer`; `freshCp` is the handle
`_create_checkpointer` would return if one has to be created. -/
def createAgent (s : AgentSessionState) (memoryContext : String) (freshCp : Nat) :
    AgentSessionState :=
  let s1 := createModel s
  let s2 := if s1.checkpointer.isNone then { s1 with checkpointer := some freshCp } else s1
  { s2 with
      agent := some { model := s2.model, mcpClientRef := s2.mcpClientRef,
                      checkpointerRef := s2.checkpointer, memoryContext := memoryContext },
      modelKey := modelKeyOf s2.settings,
      agentReady := true }

/-- The keyword arguments of `update_settings` (unknown keys are dropped by
the `hasattr` check in the source and are not modelled). -/
structure SettingsKwargs where
  provider : Option String
  modelName : Option String
  temperature : Option PyFloat
  mcpServerUrl : Option (Option String)
  mcpTransport : Option String
  mcpSslVerify : Option Bool
deriving Repr

def applySettings (st : SessionSettings) (kw : SettingsKwargs) : SessionSettings :=
  { provider := kw.provider.getD st.provider,
    modelName := kw.modelName.getD st.modelName,
    temperature := kw.temperature.getD st.temperature,
    mcpServerUrl := kw.mcpServerUrl.getD st.mcpServerUrl,
    mcpTransport := kw.mcpTransport.getD st.mcpTransport,
    mcpSslVerify := kw.mcpSslVerify.getD st.mcpSslVerify }

/-- `update_settings(**kwargs)`: applies the field changes, then rebuilds the
agent via `_create_agent()` (empty memory context) when the model key changed
and the agent was ready; returns whether a rebuild occurred. -/
def updateSettings (s : AgentSessionState) (kw : SettingsKwargs) (freshCp : Nat) :
    AgentSessionState × Bool :=
  let oldKey := modelKeyOf s.settings
  let s1 := { s with settings := applySettings s.settings kw }
  let newKey := modelKeyOf s1.settings
  if oldKey ≠ newKey ∧ s1.agentReady = true then (createAgent s1 "" freshCp, true)
  else (s1, false)

/-- The session settings a fresh session starts with in the scenario below. -/
def settingsEx : SessionSettings :=
  { provider := "anthropic", modelName := "claude-sonnet-4-20250514",
    temperature := { num := 0, den := 1 }, mcpServerUrl := none,
    mcpTransport := "http", mcpSslVerify := false }

/-- The relevant `AgentSession.__init__` state for the scenario. -/
def sessInitEx : AgentSessionState :=
  { sessionId := "s1", settings := settingsEx, mcpClientRef := some 7, agent := none,
    checkpointer := none, model := none, modelKey := "", agentReady := false }

/-- The session after `initialize()` ran `_create_agent` (checkpointer handle
`42` created once). -/
def sessReadyEx : AgentSessionState := createAgent sessInitEx "" 42

/-- `update_settings(model_name="gpt-4o")`. -/
def kwSwapEx : SettingsKwargs :=
  { provider := none, modelName := some "gpt-4o", temperature := none,
    mcpServerUrl := none, mcpTransport := none, mcpSslVerify := none }

/-- C3: on a ready session, `update_settings(model_name="gpt-4o")` applies
the field and reports a rebuild, the checkpointer is kept, and an immediate
second identical call reports no rebuild and also keeps the checkpointer —
but the rebuilt agent is **not** built from a model constructed from the new
settings: `_create_model` returns early because `self._model` is already set,
so the new agent still carries the old `claude-sonnet-4-20250514` model
object, contradicting the claimed "new agent uses a model constructed from
the new settings". -/
theorem updateSettings_rebuild_keeps_stale_model :
    (updateSettings sessReadyEx kwSwapEx 99).2 = true ∧
    (updateSettings sessReadyEx kwSwapEx 99).1.settings.modelName = "gpt-4o" ∧
    (updateSettings sessReadyEx kwSwapEx 99).1.agent =
      some { model := some { provider := "anthropic",
                             modelName := "claude-sonnet-4-20250514",
                             temperature := { num := 0, den := 1 } },
             mcpClientRef := some 7, checkpointerRef := some 42, memoryContext := "" } ∧
    ¬ ((updateSettings sessReadyEx kwSwapEx 99).1.agent.bind AgentHandle.model =
        some { provider := "anthropic", modelName := "gpt-4o",
               temperature := { num := 0, den := 1 } }) ∧
    (updateSettings sessReadyEx kwSwapEx 99).1.checkpointer = sessReadyEx.checkpointer ∧
    (updateSettings (updateSettings sessReadyEx kwSwapEx 99).1 kwSwapEx 100).2 = false ∧
    (updateSettings (updateSettings sessReadyEx kwSwapEx 99).1 kwSwapEx 100).1.checkpointer =
      sessReadyEx.checkpointer := by
  refine ⟨by decide, by decide, by decide, by decide, by decide, by decide, by decide⟩

/-! ### C6 — tool failures in the `send_message` event stream -/

/-- The `ToolCall` dataclass. -/
structure ToolCall where
  id : String
  name : String
  arguments : String
  status : String
  output : String
  error : String
deriving DecidableEq, Repr

/-- A block of an `AIMessageChunk.content` list: a plain string, a
`type="text"` dict, or a dict of another type (skipped by
`_extract_content`). -/
inductive ChunkBlock where
  | strBlock (s : String)
  | textDict (text : String)
  | otherDict (blockType : String)
deriving DecidableEq, Repr

/-- An `AIMessageChunk.content`: a string or a list of blocks. -/
inductive ChunkContent where
  | strContent (s : String)
  | listContent (blocks : List ChunkBlock)
deriving DecidableEq, Repr

/-- `_extract_content`. -/
def extractContent : ChunkContent → String
  | .strContent s => s
  | .listContent blocks =>
      String.join (blocks.map fun b =>
        match b with
        | .strBlock s => s
        | .textDict t => t
        | .otherDict _ => "")

/-- Python truthiness of `chunk.content`. -/
def contentTruthy : ChunkContent → Bool
  | .strContent s => !s.isEmpty
  | .listContent blocks => !blocks.isEmpty

/-- One event of `self._agent.astream_events(..., version="v2")`, keyed by
its `event` field: the three kinds `send_message` handles, and every other
kind (`on_tool_error`, `on_chain_start`, …) which the loop body silently
skips. -/
inductive StreamEvent where
  | chatModelStream (chunk : Option ChunkContent)
  | toolStartEvent (runId name input : String)
  | toolEndEvent (runId output : String)
  | otherEvent (eventType : String)
deriving DecidableEq, Repr

/-- A whole turn of the underlying agent stream: it either completes after
yielding its events, or raises after yielding a prefix of them (a model
error, or a tool error that the agent layer re-raises). -/
inductive AgentRun where
  | completes (events : List StreamEvent)
  | raisesAfter (events : List StreamEvent) (errText : String)
deriving Repr

/-- The discriminated union yielded by `send_message`. -/
inductive SessionEvent where
  | userMessageEv (content : String)
  | tokenEv (content : String)
  | toolStartEv (tc : ToolCall)
  | toolEndEv (tc : ToolCall)
  | assistantMessageEv (content : String)
  | systemEv (content : String)
  | errorEv (message : String)
deriving DecidableEq, Repr

/-- The `on_tool_end` branch: walk `self.tool_calls`, update the first record
whose id matches in place (`status="complete"`, output set) and return it;
`None` when no record matches. -/
def updateToolCallList (runId output : String) :
    List ToolCall → List ToolCall × Option ToolCall
  | [] => ([], none)
  | tc :: rest =>
      if tc.id == runId then
        let tc1 : ToolCall := { tc with status := "complete", output := output }
        (tc1 :: rest, some tc1)
      else
        let r := updateToolCallList runId output rest
        (tc :: r.1, r.2)

structure TurnLoopState where
  assistantContent : String
  toolCalls : List ToolCall
  events : List SessionEvent
deriving Repr

/-- The body of the `async for event in self._agent.astream_events(...)`
loop. -/
def stepTurnEvent (ls : TurnLoopState) : StreamEvent → TurnLoopState
  | .chatModelStream chunk =>
      match chunk with
      | none => ls
      | some c =>
          if contentTruthy c then
            let tokenContent := extractContent c
            if tokenContent.isEmpty then ls
            else
              { ls with assistantContent := ls.assistantContent ++ tokenContent,
                        events := ls.events ++ [.tokenEv tokenContent] }
          else ls
  | .toolStartEvent runId name input =>
      let tc : ToolCall := { id := runId, name := name, arguments := input,
                             status := "running", output := "", error := "" }
      { ls with toolCalls := ls.toolCalls ++ [tc],
                events := ls.events ++ [.toolStartEv tc] }
  | .toolEndEvent runId output =>
      let r := updateToolCallList runId output ls.toolCalls
      match r.2 with
      | some tc1 => { ls with toolCalls := r.1, events := ls.events ++ [.toolEndEv tc1] }
      | none => { ls with toolCalls := r.1 }
  | .otherEvent _ => ls

def runTurnLoop (ls : TurnLoopState) (evts : List StreamEvent) : TurnLoopState :=
  evts.foldl stepTurnEvent ls

/-- Python `str.strip()`. -/
def pyStrip (s : String) : String :=
  ⟨((s.data.dropWhile Char.isWhitespace).reverse.dropWhile Char.isWhitespace).reverse⟩

/-- Python `s[:n]` for `n ≥ 0`. -/
def pySliceTo (s : String) (n : Nat) : String := ⟨s.data.take n⟩

/-- The `AgentSession` attributes that `send_message` reads or writes.
`storeUpdates` records the `update_session(session_id, title?, preview?,
message_count?)` calls issued to the metadata store. -/
structure SendState where
  sessionId : String
  messages : List Message
  toolCalls : List ToolCall
  mm : Option MemoryManagerState           -- `self._memory_manager`
  hasSessionStore : Bool                   -- truthiness of `self._session_store`
  storeUpdates : List (String × Option String × Option String × Option Nat)
  titleSet : Bool
  agentReady : Bool
  isStreaming : Bool
  isProcessing : Bool
  errorMessage : String
deriving Repr

/-- `_check_context_limit`. -/
def checkContextLimitSend (ora : PyOracles) (st : SendState) : SendState × Bool :=
  match st.mm with
  | none => (st, false)
  | some mm =>
      if shouldSummarize mm st.messages then
        let r := summarizeAndTrim ora mm st.messages 4
        ({ st with mm := some r.1, messages := r.2.1 }, true)
      else (st, false)

/-- `_maybe_extract_memories`. -/
def maybeExtractSend (ora : PyOracles) (st : SendState) : SendState :=
  match st.mm with
  | none => st
  | some mm =>
      if shouldExtract mm st.messages then
        { st with mm := some (extractIncremental ora mm st.messages).1 }
      else st

def notReadyMessage : String := "Agent not ready. Please wait for initialization."

/-- `send_message(content)`: the full event-stream translation of one turn.
`run` is the oracle for the underlying `astream_events` trace. -/
def sendMessage (ora : PyOracles) (st : SendState) (content : String) (run : AgentRun) :
    SendState × List SessionEvent :=
  let stripped := pyStrip content
  if stripped.isEmpty then (st, [])
  else if !st.agentReady then (st, [.errorEv notReadyMessage])
  else
    let cres := checkContextLimitSend ora st
    let st1 := cres.1
    let ev0 : List SessionEvent :=
      if cres.2 then [.systemEv "Conversation summarized to manage context."] else []
    let userMsg : Message := { role := "user", content := stripped }
    let st2 := { st1 with messages := st1.messages ++ [userMsg] }
    let ev1 := ev0 ++ [.userMessageEv userMsg.content]
    let st3 :=
      if !st2.titleSet && st2.hasSessionStore then
        let title0 := pySliceTo stripped 50
        let title := if 50 < stripped.length then title0 ++ "..." else title0
        { st2 with
            storeUpdates := st2.storeUpdates ++ [(st2.sessionId, some title, none, none)],
            titleSet := true }
      else st2
    let st4 := { st3 with isStreaming := true, isProcessing := true, toolCalls := [] }
    match run with
    | .completes evts =>
        let ls := runTurnLoop { assistantContent := "", toolCalls := [], events := [] } evts
        let st5 := { st4 with
            toolCalls := ls.toolCalls,
            messages := st4.messages ++ [({ role := "assistant", content := ls.assistantContent } : Message)] }
        let ev2 := ev1 ++ ls.events ++ [.assistantMessageEv ls.assistantContent]
        let st6 :=
          if st5.hasSessionStore then
            let preview := if ls.assistantContent.isEmpty then ""
              else pySliceTo ls.assistantContent 100
            { st5 with storeUpdates := st5.storeUpdates ++
                [(st5.sessionId, none, some preview, some st5.messages.length)] }
          else st5
        let st7 := maybeExtractSend ora st6
        ({ st7 with isStreaming := false, isProcessing := false }, ev2)
    | .raisesAfter evts errText =>
        let ls := runTurnLoop { assistantContent := "", toolCalls := [], events := [] } evts
        let st5 := { st4 with
            toolCalls := ls.toolCalls,
            messages := st4.messages ++ [({ role := "assistant", content := "Error: " ++ errText } : Message)],
            errorMessage := errText }
        let ev2 := ev1 ++ ls.events ++ [.errorEv errText]
        ({ st5 with isStreaming := false, isProcessing := false }, ev2)

/-- A `tool_end` event carrying an error-status record, as the claim
describes it. -/
def toolEndNotError : SessionEvent → Bool
  | .toolEndEv tc => !(tc.status == "error") && tc.error == ""
  | _ => true

theorem updateToolCallList_preserves (runId output : String) :
    ∀ l : List ToolCall, (∀ tc ∈ l, tc.error = "") →
      (∀ tc ∈ (updateToolCallList runId output l).1, tc.error = "") ∧
      (∀ tc1, (updateToolCallList runId output l).2 = some tc1 →
        tc1.status = "complete" ∧ tc1.error = "") := by
  intro l
  induction l with
  | nil => intro _; exact ⟨fun tc h => absurd h (List.not_mem_nil tc), fun tc1 h => by cases h⟩
  | cons tc rest ih =>
      intro h
      have htc : tc.error = "" := h tc (List.mem_cons_self tc rest)
      have hrest : ∀ t ∈ rest, t.error = "" := fun t ht => h t (List.mem_cons_of_mem tc ht)
      simp only [updateToolCallList]
      split
      · constructor
        · intro t ht
          rcases List.mem_cons.mp ht with rfl | ht'
          · exact htc
          · exact hrest t ht'
        · intro tc1 h1
          cases h1
          exact ⟨rfl, htc⟩
      · constructor
        · intro t ht
          rcases List.mem_cons.mp ht with rfl | ht'
          · exact htc
          · exact ((ih hrest).1) t ht'
        · exact (ih hrest).2

theorem stepTurnEvent_inv (ls : TurnLoopState) (e : StreamEvent)
    (h1 : ∀ ev ∈ ls.events, toolEndNotError ev = true)
    (h2 : ∀ tc ∈ ls.toolCalls, tc.error = "") :
    (∀ ev ∈ (stepTurnEvent ls e).events, toolEndNotError ev = true) ∧
    (∀ tc ∈ (stepTurnEvent ls e).toolCalls, tc.error = "") := by
  cases e with
  | chatModelStream chunk =>
      cases chunk with
      | none => exact ⟨h1, h2⟩
      | some c =>
          simp only [stepTurnEvent]
          split
          · split
            · exact ⟨h1, h2⟩
            · refine ⟨?_, h2⟩
              intro ev hev
              rcases List.mem_append.mp hev with hev' | hev'
              · exact h1 ev hev'
              · rcases List.mem_singleton.mp hev' with rfl
                rfl
          · exact ⟨h1, h2⟩
  | toolStartEvent runId name input =>
      refine ⟨?_, ?_⟩
      · intro ev hev
        rcases List.mem_append.mp hev with hev' | hev'
        · exact h1 ev hev'
        · rcases List.mem_singleton.mp hev' with rfl
          rfl
      · intro tc htc
        rcases List.mem_append.mp htc with htc' | htc'
        · exact h2 tc htc'
        · rcases List.mem_singleton.mp htc' with rfl
          rfl
  | toolEndEvent runId output =>
      have hu := updateToolCallList_preserves runId output ls.toolCalls h2
      simp only [stepTurnEvent]
      cases hm : (updateToolCallList runId output ls.toolCalls).2 with
      | none => exact ⟨h1, hu.1⟩
      | some tc1 =>
          have htc1 := hu.2 tc1 hm
          refine ⟨?_, hu.1⟩
          intro ev hev
          rcases List.mem_append.mp hev with hev' | hev'
          · exact h1 ev hev'
          · rcases List.mem_singleton.mp hev' with rfl
            simp only [toolEndNotError, htc1.1, htc1.2]
            rfl
  | otherEvent t => exact ⟨h1, h2⟩

theorem toolEndNotError_append {a b : List SessionEvent}
    (ha : ∀ ev ∈ a, toolEndNotError ev = true)
    (hb : ∀ ev ∈ b, toolEndNotError ev = true) :
    ∀ ev ∈ a ++ b, toolEndNotError ev = true := by
  intro ev hev
  rcases List.mem_append.mp hev with h | h
  · exact ha ev h
  · exact hb ev h

theorem toolEndNotError_single {e : SessionEvent} (he : toolEndNotError e = true) :
    ∀ ev ∈ [e], toolEndNotError ev = true := by
  intro ev hev
  rcases List.mem_singleton.mp hev with rfl
  exact he

theorem runTurnLoop_inv (evts : List StreamEvent) :
    ∀ ls : TurnLoopState, (∀ ev ∈ ls.events, toolEndNotError ev = true) →
      (∀ tc ∈ ls.toolCalls, tc.error = "") →
      ∀ ev ∈ (runTurnLoop ls evts).events, toolEndNotError ev = true := by
  induction evts with
  | nil => intro ls h1 _ ev hev; exact h1 ev hev
  | cons e rest ih =>
      intro ls h1 h2
      have hstep := stepTurnEvent_inv ls e h1 h2
      exact ih (stepTurnEvent ls e) hstep.1 hstep.2

/-- C6: a failing tool invocation is never reported the way the claim says.
`send_message` recognises only `on_chat_model_stream`, `on_tool_start` and
`on_tool_end`; every `tool_end` event it ever emits carries a record whose
status was just set to `"complete"` and whose `error` field is the empty
string it was created with — no event of the turn, for any underlying agent
trace, is a `tool_end` with `status="error"` or a populated `error` field.
(A tool-error event of the stream, `on_tool_error`, falls into the ignored
branch: the pending record stays `"running"` and no `tool_end` is emitted
at all, as the second conjunct shows on a concrete failing trace.) -/
theorem sendMessage_never_emits_error_toolEnd (ora : PyOracles) (st : SendState)
    (content : String) (run : AgentRun) :
    ((sendMessage ora st content run).2.all toolEndNotError) = true ∧
    (sendMessage oraEx
        { sessionId := "s1", messages := [], toolCalls := [], mm := none,
          hasSessionStore := false, storeUpdates := [], titleSet := true,
          agentReady := true, isStreaming := false, isProcessing := false,
          errorMessage := "" }
        "kill the pod"
        (AgentRun.completes [StreamEvent.toolStartEvent "r1" "kubectl" "args",
          StreamEvent.otherEvent "on_tool_error"])).2 =
      [SessionEvent.userMessageEv "kill the pod",
       SessionEvent.toolStartEv { id := "r1", name := "kubectl", arguments := "args",
                                  status := "running", output := "", error := "" },
       SessionEvent.assistantMessageEv ""] := by
  constructor
  · apply List.all_eq_true.mpr
    cases run with
    | completes evts =>
        simp only [sendMessage]
        split
        · exact fun ev hev => absurd hev (List.not_mem_nil ev)
        split
        · exact toolEndNotError_single rfl
        · refine toolEndNotError_append
            (toolEndNotError_append (toolEndNotError_append ?_ ?_) ?_) ?_
          · split
            · exact toolEndNotError_single rfl
            · exact fun ev hev => absurd hev (List.not_mem_nil ev)
          · exact toolEndNotError_single rfl
          · exact runTurnLoop_inv evts _ (fun _ h => absurd h (List.not_mem_nil _))
              (fun _ h => absurd h (List.not_mem_nil _))
          · exact toolEndNotError_single rfl
    | raisesAfter evts errText =>
        simp only [sendMessage]
        split
        · exact fun ev hev => absurd hev (List.not_mem_nil ev)
        split
        · exact toolEndNotError_single rfl
        · refine toolEndNotError_append
            (toolEndNotError_append (toolEndNotError_append ?_ ?_) ?_) ?_
          · split
            · exact toolEndNotError_single rfl
            · exact fun ev hev => absurd hev (List.not_mem_nil ev)
          · exact toolEndNotError_single rfl
          · exact runTurnLoop_inv evts _ (fun _ h => absurd h (List.not_mem_nil _))
              (fun _ h => absurd h (List.not_mem_nil _))
          · exact toolEndNotError_single rfl
  · rfl

/-! ## Sorting infrastructure

Python's `list.sort(key=..., reverse=...)` and Redis's sorted-set ordering
are modelled by one stable insertion sort parameterised by a Boolean
"may-come-first" comparator: ascending Python sort is `le x y = key x ≤ key y`,
descending (`reverse=True`) is `le x y = key y ≤ key x` (both stable), and
the Redis member ordering is the (score, member) lexicographic comparator. -/

def insSorted (le : α → α → Bool) (x : α) : List α → List α
  | [] => [x]
  | y :: ys => if le x y then x :: y :: ys else y :: insSorted le x ys

def sortBy (le : α → α → Bool) : List α → List α
  | [] => []
  | x :: xs => insSorted le x (sortBy le xs)

theorem mem_insSorted (le : α → α → Bool) (x a : α) :
    ∀ l : List α, a ∈ insSorted le x l ↔ a = x ∨ a ∈ l := by
  intro l
  induction l with
  | nil => simp [insSorted]
  | cons y ys ih =>
      simp only [insSorted]
      split
      · simp [List.mem_cons]
      · simp only [List.mem_cons, ih]
        tauto

theorem mem_sortBy (le : α → α → Bool) (a : α) :
    ∀ l : List α, a ∈ sortBy le l ↔ a ∈ l := by
  intro l
  induction l with
  | nil => simp [sortBy]
  | cons x xs ih =>
      simp only [sortBy, mem_insSorted, ih, List.mem_cons]

theorem perm_insSorted (le : α → α → Bool) (x : α) :
    ∀ l : List α, List.Perm (insSorted le x l) (x :: l) := by
  intro l
  induction l with
  | nil => simp [insSorted]
  | cons y ys ih =>
      simp only [insSorted]
      split
      · exact List.Perm.refl _
      · exact List.Perm.trans (List.Perm.cons y ih) (List.Perm.swap x y ys)

theorem perm_sortBy (le : α → α → Bool) :
    ∀ l : List α, List.Perm (sortBy le l) l := by
  intro l
  induction l with
  | nil => exact List.Perm.refl _
  | cons x xs ih =>
      exact List.Perm.trans (perm_insSorted le x (sortBy le xs)) (List.Perm.cons x ih)

theorem insSorted_eq_cons (le : α → α → Bool) (x : α) :
    ∀ l : List α, (∀ y ∈ l, le x y = true) → insSorted le x l = x :: l := by
  intro l h
  cases l with
  | nil => rfl
  | cons y ys => simp [insSorted, h y (List.mem_cons_self y ys)]

/-- Sorting a list that is already pairwise ordered is the identity. -/
theorem sortBy_eq_self (le : α → α → Bool) :
    ∀ l : List α, l.Pairwise (fun a b => le a b = true) → sortBy le l = l := by
  intro l
  induction l with
  | nil => intro _; rfl
  | cons x xs ih =>
      intro h
      rcases List.pairwise_cons.mp h with ⟨hx, hxs⟩
      rw [sortBy, ih hxs, insSorted_eq_cons le x xs hx]

theorem insSorted_pairwise (le : α → α → Bool)
    (htot : ∀ a b : α, le a b = true ∨ le b a = true)
    (htrans : ∀ a b c : α, le a b = true → le b c = true → le a c = true) (x : α) :
    ∀ l : List α, l.Pairwise (fun a b => le a b = true) →
      (insSorted le x l).Pairwise (fun a b => le a b = true) := by
  intro l
  induction l with
  | nil => intro _; simp [insSorted]
  | cons y ys ih =>
      intro h
      rcases List.pairwise_cons.mp h with ⟨hy, hys⟩
      simp only [insSorted]
      split
      · next hxy =>
          refine List.pairwise_cons.mpr ⟨?_, h⟩
          intro b hb
          rcases List.mem_cons.mp hb with rfl | hb'
          · exact hxy
          · exact htrans x y b hxy (hy b hb')
      · next hxy =>
          have hyx : le y x = true := by
            rcases htot x y with h' | h'
            · exact absurd h' hxy
            · exact h'
          refine List.pairwise_cons.mpr ⟨?_, ih hys⟩
          intro b hb
          rcases (mem_insSorted le x b ys).mp hb with rfl | hb'
          · exact hyx
          · exact hy b hb'

theorem sortBy_pairwise (le : α → α → Bool)
    (htot : ∀ a b : α, le a b = true ∨ le b a = true)
    (htrans : ∀ a b c : α, le a b = true → le b c = true → le a c = true) :
    ∀ l : List α, (sortBy le l).Pairwise (fun a b => le a b = true) := by
  intro l
  induction l with
  | nil => simp [sortBy]
  | cons x xs ih => exact insSorted_pairwise le htot htrans x (sortBy le xs) ih

theorem insSorted_map (le : α → α → Bool) (g : β → β → Bool) (f : α → β) (x : α) :
    ∀ l : List α, (∀ b ∈ l, g (f x) (f b) = le x b) →
      insSorted g (f x) (l.map f) = (insSorted le x l).map f := by
  intro l
  induction l with
  | nil => intro _; rfl
  | cons y ys ih =>
      intro h
      simp only [List.map_cons, insSorted, h y (List.mem_cons_self y ys)]
      split
      · rfl
      · rw [ih (fun b hb => h b (List.mem_cons_of_mem y hb))]
        rfl

theorem sortBy_map (le : α → α → Bool) (g : β → β → Bool) (f : α → β) :
    ∀ l : List α, (∀ a ∈ l, ∀ b ∈ l, g (f a) (f b) = le a b) →
      sortBy g (l.map f) = (sortBy le l).map f := by
  intro l
  induction l with
  | nil => intro _; rfl
  | cons x xs ih =>
      intro h
      simp only [List.map_cons, sortBy]
      rw [ih (fun a ha b hb =>
        h a (List.mem_cons_of_mem x ha) b (List.mem_cons_of_mem x hb))]
      exact insSorted_map le g f x (sortBy le xs)
        (fun b hb => h x (List.mem_cons_self x xs) b
          (List.mem_cons_of_mem x ((mem_sortBy le b xs).mp hb)))

/-- Two permuted lists that are both strictly sorted by the same `Nat` key
are equal. -/
theorem eq_of_perm_of_strict_sorted (key : α → Nat) {l₁ l₂ : List α}
    (hp : List.Perm l₁ l₂)
    (h₁ : l₁.Pairwise (fun a b => key a < key b))
    (h₂ : l₂.Pairwise (fun a b => key a < key b)) : l₁ = l₂ := by
  haveI : IsAntisymm α (fun a b => key a < key b) :=
    ⟨fun a b h1 h2 => absurd (lt_trans h1 h2) (lt_irrefl _)⟩
  exact List.eq_of_perm_of_sorted hp h₁ h₂

/-! ## Session metadata stores (`src/k8sops/session/store.py` and
`src/k8sops/session/file_store.py`)

Both backends are modelled for one store instance (one `user_id`, the
namespacing being a fixed key prefix).  Timestamps are the values of a
strictly increasing counter, one tick per store operation; ISO-8601 strings
of increasing UTC instants compare exactly like the instants, and the two
`datetime.now` calls inside one Redis operation (ISO text and sorted-set
score) land between the same neighbouring operations, so one tick per
operation preserves every comparison the source makes.  A Redis database is
its key/value, sorted-set and list contents; a JSONL file is its list of
parsed records (the JSON round-trip on these flat records is injective). -/

/-- The `SessionMetadata` dataclass (`store.py`). -/
structure SessionMeta where
  sessionId : String
  userId : String
  title : String
  createdAt : Nat
  updatedAt : Nat
  messageCount : Nat
  preview : String
deriving DecidableEq, Repr

/-- A tool-call record as appended/read by both backends (the write side of
the Redis backend and the read side of both normalise exactly these six
fields, defaulting each to `""`/`"complete"`). -/
structure ToolCallRec where
  id : String
  name : String
  arguments : String
  status : String
  output : String
  error : String
deriving DecidableEq, Repr

/-- `user_id` of the store under scrutiny. -/
def storeUser : String := "default"

/-- Overwrite-or-append on an association list: Redis `SET`/`ZADD` on an
existing key updates it in place, otherwise the key is new. -/
def kvSet (l : List (String × α)) (k : String) (v : α) : List (String × α) :=
  match l with
  | [] => [(k, v)]
  | p :: rest => if p.1 == k then (k, v) :: rest else p :: kvSet rest k v

/-- Redis `DEL` / `ZREM`. -/
def kvRemove (l : List (String × α)) (k : String) : List (String × α) :=
  l.filter (fun p => !(p.1 == k))

/-- The Redis backend state: metadata records (`sessions:{user}:{sid}`), the
score-sorted index (`sessions:{user}:index`), and the tool-call lists. -/
structure RedisState where
  kv : List (String × SessionMeta)
  zset : List (String × Nat)
  toolLists : List (String × List ToolCallRec)
deriving DecidableEq, Repr

def emptyRedis : RedisState := { kv := [], zset := [], toolLists := [] }

/-- Redis sorted-set ordering: ascending by score, ties broken by the
member's lexicographic order. -/
def zleAsc (a b : String × Nat) : Bool :=
  a.2 < b.2 || (a.2 == b.2 && decide (a.1 ≤ b.1))

/-- Redis `ZRANGE`/`LRANGE` index semantics: inclusive bounds, negative
indices count from the end, out-of-range bounds are clamped. -/
def redisRangeList (l : List α) (start stop : Int) : List α :=
  let n : Int := l.length
  let s := if start < 0 then n + start else start
  let e := if stop < 0 then n + stop else stop
  let s' := max s 0
  let e' := min e (n - 1)
  if s' > e' then [] else (l.drop s'.toNat).take (e' - s' + 1).toNat

def zrangeMembers (z : List (String × Nat)) (start stop : Int) : List String :=
  redisRangeList ((sortBy zleAsc z).map Prod.fst) start stop

def zrevrangeMembers (z : List (String × Nat)) (start stop : Int) : List String :=
  redisRangeList (((sortBy zleAsc z).map Prod.fst).reverse) start stop

/-- The fresh metadata record both backends build in `create_session`. -/
def mkNewMeta (sid title : String) (t : Nat) : SessionMeta :=
  { sessionId := sid, userId := storeUser, title := title,
    createdAt := t, updatedAt := t, messageCount := 0, preview := "" }

def redisCreateSession (rs : RedisState) (t : Nat) (sid title : String) :
    RedisState × SessionMeta :=
  let meta := mkNewMeta sid title t
  ({ rs with kv := kvSet rs.kv sid meta, zset := kvSet rs.zset sid t }, meta)

/-- Python ascending sort key `updated_at` / descending (`reverse=True`). -/
def ascByUpd (a b : SessionMeta) : Bool := decide (a.updatedAt ≤ b.updatedAt)
def descByUpd (a b : SessionMeta) : Bool := decide (b.updatedAt ≤ a.updatedAt)

def redisListSessions (rs : RedisState) (limit : Nat) : List SessionMeta :=
  let ids := zrevrangeMembers rs.zset 0 ((limit : Int) - 1)
  if ids.isEmpty then []
  else
    let sessions := ids.filterMap (fun sid => List.lookup sid rs.kv)
    sortBy descByUpd sessions

/-- The field updates of `update_session` (shared by both backends): set the
provided fields, truncate the preview to 100 characters, always bump
`updated_at`. -/
def applyMetaUpdate (title preview : Option String) (messageCount : Option Nat)
    (t : Nat) (m : SessionMeta) : SessionMeta :=
  { m with
      title := title.getD m.title,
      preview := (preview.map (fun p => pySliceTo p 100)).getD m.preview,
      messageCount := messageCount.getD m.messageCount,
      updatedAt := t }

def redisUpdateSession (rs : RedisState) (t : Nat) (sid : String)
    (title preview : Option String) (messageCount : Option Nat) :
    RedisState × Option SessionMeta :=
  match List.lookup sid rs.kv with
  | none => (rs, none)
  | some meta =>
      let meta1 := applyMetaUpdate title preview messageCount t meta
      ({ rs with kv := kvSet rs.kv sid meta1, zset := kvSet rs.zset sid t }, some meta1)

def redisDeleteSession (rs : RedisState) (sid : String) : RedisState × Bool :=
  if (List.lookup sid rs.kv).isSome then
    ({ kv := kvRemove rs.kv sid, zset := kvRemove rs.zset sid,
       toolLists := kvRemove rs.toolLists sid }, true)
  else (rs, false)

def redisRenameSession (rs : RedisState) (t : Nat) (sid title : String) :
    RedisState × Bool :=
  let r := redisUpdateSession rs t sid (some title) none none
  (r.1, r.2.isSome)

def redisDeleteLoop (rs : RedisState) : List String → RedisState × List String
  | [] => (rs, [])
  | sid :: rest =>
      let r := redisDeleteSession rs sid
      let r2 := redisDeleteLoop r.1 rest
      if r.2 then (r2.1, sid :: r2.2) else (r2.1, r2.2)

def redisEnforceLimit (rs : RedisState) (maxSessions : Nat) : RedisState × List String :=
  let count := rs.zset.length
  if count ≤ maxSessions then (rs, [])
  else
    let toDeleteCount := count - maxSessions
    let oldestIds := zrangeMembers rs.zset 0 ((toDeleteCount : Int) - 1)
    redisDeleteLoop rs oldestIds

def redisAppendToolCall (rs : RedisState) (sid : String) (tc : ToolCallRec) : RedisState :=
  let newList := ((List.lookup sid rs.toolLists).getD []) ++ [tc]
  { rs with toolLists := kvSet rs.toolLists sid newList }

def redisGetToolCalls (rs : RedisState) (sid : String) : List ToolCallRec :=
  (List.lookup sid rs.toolLists).getD []

/-- One parsed line of a `<session_id>.jsonl` file. -/
inductive FileEvent where
  | metaEv (m : SessionMeta)
  | toolEv (tc : ToolCallRec)
  | msgEv (role content : String)
deriving DecidableEq, Repr

/-- The file backend state: the current user's entries of `sessions.jsonl`
in file order, and the per-session files (present key = existing file). -/
structure FileState where
  index : List SessionMeta
  files : List (String × List FileEvent)
deriving DecidableEq, Repr

def emptyFile : FileState := { index := [], files := [] }

/-- `_append_to_session`: appending in `"a"` mode creates the file. -/
def fileAppend (fs : FileState) (sid : String) (ev : FileEvent) : FileState :=
  { fs with files := kvSet fs.files sid (((List.lookup sid fs.files).getD []) ++ [ev]) }

def fileCreateSession (fs : FileState) (t : Nat) (sid title : String) :
    FileState × SessionMeta :=
  let meta := mkNewMeta sid title t
  let fs1 := fileAppend fs sid (.metaEv meta)
  ({ fs1 with index := fs1.index ++ [meta] }, meta)

def fileGetSession (fs : FileState) (sid : String) : Option SessionMeta :=
  fs.index.find? (fun m => m.sessionId == sid)

def fileListSessions (fs : FileState) (limit : Nat) : List SessionMeta :=
  (sortBy descByUpd fs.index).take limit

/-- The `update_session` loop of the file backend: update the first index
entry whose id matches, in place. -/
def listUpdateFirst (sid : String) (f : SessionMeta → SessionMeta) :
    List SessionMeta → List SessionMeta × Option SessionMeta
  | [] => ([], none)
  | m :: rest =>
      if m.sessionId == sid then (f m :: rest, some (f m))
      else
        let r := listUpdateFirst sid f rest
        (m :: r.1, r.2)

/-- `_update_session_file_metadata`, on the parsed lines: merge the new
metadata into the first `type="metadata"` line; if none exists, prepend
one. -/
def replaceFirstMeta (meta : SessionMeta) : List FileEvent → Option (List FileEvent)
  | [] => none
  | .metaEv _ :: rest => some (.metaEv meta :: rest)
  | e :: rest => (replaceFirstMeta meta rest).map (e :: ·)

def updateFileMeta (evs : List FileEvent) (meta : SessionMeta) : List FileEvent :=
  (replaceFirstMeta meta evs).getD (.metaEv meta :: evs)

def fileUpdateSession (fs : FileState) (t : Nat) (sid : String)
    (title preview : Option String) (messageCount : Option Nat) :
    FileState × Option SessionMeta :=
  let r := listUpdateFirst sid (applyMetaUpdate title preview messageCount t) fs.index
  match r.2 with
  | none => (fs, none)
  | some meta1 =>
      let fs1 := { fs with index := r.1 }
      let fs2 := match List.lookup sid fs1.files with
        | none => fs1
        | some evs => { fs1 with files := kvSet fs1.files sid (updateFileMeta evs meta1) }
      (fs2, some meta1)

def fileDeleteSession (fs : FileState) (sid : String) : FileState × Bool :=
  let newIndex := fs.index.filter (fun m => !(m.sessionId == sid))
  if newIndex.length == fs.index.length then (fs, false)
  else ({ index := newIndex, files := kvRemove fs.files sid }, true)

def fileRenameSession (fs : FileState) (t : Nat) (sid title : String) :
    FileState × Bool :=
  let r := fileUpdateSession fs t sid (some title) none none
  (r.1, r.2.isSome)

/-- The deletion loop of the file backend's `enforce_session_limit`; note the
`if session_id and ...` truthiness check skips an empty-string id. -/
def fileDeleteLoop (fs : FileState) : List String → FileState × List String
  | [] => (fs, [])
  | sid :: rest =>
      if sid.isEmpty then fileDeleteLoop fs rest
      else
        let r := fileDeleteSession fs sid
        let r2 := fileDeleteLoop r.1 rest
        if r.2 then (r2.1, sid :: r2.2) else (r2.1, r2.2)

def fileEnforceLimit (fs : FileState) (maxSessions : Nat) : FileState × List String :=
  if fs.index.length ≤ maxSessions then (fs, [])
  else
    let sorted := sortBy ascByUpd fs.index
    let toDelete := sorted.take (fs.index.length - maxSessions)
    fileDeleteLoop fs (toDelete.map (·.sessionId))

def fileAppendToolCall (fs : FileState) (sid : String) (tc : ToolCallRec) : FileState :=
  fileAppend fs sid (.toolEv tc)

def toolEventsOf (evs : List FileEvent) : List ToolCallRec :=
  evs.filterMap (fun e => match e with | .toolEv tc => some tc | _ => none)

def fileGetToolCalls (fs : FileState) (sid : String) : List ToolCallRec :=
  toolEventsOf ((List.lookup sid fs.files).getD [])

def fileSessionExists (fs : FileState) (sid : String) : Bool :=
  (List.lookup sid fs.files).isSome

def redisSessionExists (rs : RedisState) (sid : String) : Bool :=
  (List.lookup sid rs.kv).isSome

/-! ### The common store operation language and the two runners -/

inductive StoreOp where
  | createSessionOp (sid title : String)
  | getSessionOp (sid : String)
  | listSessionsOp (limit : Nat)
  | updateSessionOp (sid : String) (title preview : Option String) (messageCount : Option Nat)
  | deleteSessionOp (sid : String)
  | sessionExistsOp (sid : String)
  | getSessionCountOp
  | enforceLimitOp (maxSessions : Nat)
  | renameSessionOp (sid title : String)
  | appendToolCallOp (sid : String) (tc : ToolCallRec)
  | getToolCallsOp (sid : String)
  | closeOp
deriving DecidableEq, Repr

/-- The externally observable result of one store operation. -/
inductive StoreObs where
  | metaObs (m : SessionMeta)
  | optMetaObs (m : Option SessionMeta)
  | metasObs (l : List SessionMeta)
  | boolObs (b : Bool)
  | natObs (n : Nat)
  | idsObs (l : List String)
  | toolCallsObs (l : List ToolCallRec)
  | unitObs
deriving DecidableEq, Repr

def redisStep (rs : RedisState) (t : Nat) : StoreOp → RedisState × StoreObs
  | .createSessionOp sid title =>
      let r := redisCreateSession rs t sid title
      (r.1, .metaObs r.2)
  | .getSessionOp sid => (rs, .optMetaObs (List.lookup sid rs.kv))
  | .listSessionsOp limit => (rs, .metasObs (redisListSessions rs limit))
  | .updateSessionOp sid ti pv mc =>
      let r := redisUpdateSession rs t sid ti pv mc
      (r.1, .optMetaObs r.2)
  | .deleteSessionOp sid =>
      let r := redisDeleteSession rs sid
      (r.1, .boolObs r.2)
  | .sessionExistsOp sid => (rs, .boolObs (redisSessionExists rs sid))
  | .getSessionCountOp => (rs, .natObs rs.zset.length)
  | .enforceLimitOp maxS =>
      let r := redisEnforceLimit rs maxS
      (r.1, .idsObs r.2)
  | .renameSessionOp sid title =>
      let r := redisRenameSession rs t sid title
      (r.1, .boolObs r.2)
  | .appendToolCallOp sid tc => (redisAppendToolCall rs sid tc, .unitObs)
  | .getToolCallsOp sid => (rs, .toolCallsObs (redisGetToolCalls rs sid))
  | .closeOp => (rs, .unitObs)

def fileStep (fs : FileState) (t : Nat) : StoreOp → FileState × StoreObs
  | .createSessionOp sid title =>
      let r := fileCreateSession fs t sid title
      (r.1, .metaObs r.2)
  | .getSessionOp sid => (fs, .optMetaObs (fileGetSession fs sid))
  | .listSessionsOp limit => (fs, .metasObs (fileListSessions fs limit))
  | .updateSessionOp sid ti pv mc =>
      let r := fileUpdateSession fs t sid ti pv mc
      (r.1, .optMetaObs r.2)
  | .deleteSessionOp sid =>
      let r := fileDeleteSession fs sid
      (r.1, .boolObs r.2)
  | .sessionExistsOp sid => (fs, .boolObs (fileSessionExists fs sid))
  | .getSessionCountOp => (fs, .natObs fs.index.length)
  | .enforceLimitOp maxS =>
      let r := fileEnforceLimit fs maxS
      (r.1, .idsObs r.2)
  | .renameSessionOp sid title =>
      let r := fileRenameSession fs t sid title
      (r.1, .boolObs r.2)
  | .appendToolCallOp sid tc => (fileAppendToolCall fs sid tc, .unitObs)
  | .getToolCallsOp sid => (fs, .toolCallsObs (fileGetToolCalls fs sid))
  | .closeOp => (fs, .unitObs)

/-- Run a sequence of operations against the Redis backend, one clock tick
per operation, collecting the observations. -/
def redisRun (rs : RedisState) (t : Nat) : List StoreOp → List StoreObs
  | [] => []
  | op :: rest =>
      let r := redisStep rs t op
      r.2 :: redisRun r.1 (t + 1) rest

def fileRun (fs : FileState) (t : Nat) : List StoreOp → List StoreObs
  | [] => []
  | op :: rest =>
      let r := fileStep fs t op
      r.2 :: fileRun r.1 (t + 1) rest

/-- The final file-backend state after a run. -/
def fileRunState (fs : FileState) (t : Nat) : List StoreOp → FileState
  | [] => fs
  | op :: rest => fileRunState (fileStep fs t op).1 (t + 1) rest

/-- Well-formed usage, checked along the Redis run: a `create_session` uses a
fresh, non-empty session id; `append_tool_call` targets an existing session;
`list_sessions` is called with a positive limit. -/
def wfOp (rs : RedisState) : StoreOp → Bool
  | .createSessionOp sid _ => !sid.isEmpty && !(List.lookup sid rs.kv).isSome
  | .appendToolCallOp sid _ => (List.lookup sid rs.kv).isSome
  | .listSessionsOp limit => decide (1 ≤ limit)
  | _ => true

def wfOpsFrom (rs : RedisState) (t : Nat) : List StoreOp → Bool
  | [] => true
  | op :: rest => wfOp rs op && wfOpsFrom (redisStep rs t op).1 (t + 1) rest

/-! ### Association-list and `find?` bookkeeping lemmas -/

def pairOfMeta (m : SessionMeta) : String × SessionMeta := (m.sessionId, m)
def zentryOfMeta (m : SessionMeta) : String × Nat := (m.sessionId, m.updatedAt)

theorem lookup_keyed {α : Type} (g : SessionMeta → α) (sid : String) :
    ∀ l : List SessionMeta,
      List.lookup sid (l.map (fun m => (m.sessionId, g m))) =
        (l.find? (fun m => sid == m.sessionId)).map g := by
  intro l
  induction l with
  | nil => rfl
  | cons m rest ih =>
      simp only [List.map_cons, List.lookup, List.find?]
      cases h : (sid == m.sessionId) with
      | true => rfl
      | false => exact ih

theorem find?_ext {α : Type} (p q : α → Bool) (h : ∀ a, p a = q a) :
    ∀ l : List α, l.find? p = l.find? q := by
  intro l
  induction l with
  | nil => rfl
  | cons x xs ih =>
      simp only [List.find?, h x]
      cases q x
      · exact ih
      · rfl

/-- With pairwise-distinct session ids, `find?` at a member's id returns that
member. -/
theorem find?_mem_unique (m : SessionMeta) :
    ∀ l : List SessionMeta, l.Pairwise (fun a b => a.sessionId ≠ b.sessionId) →
      m ∈ l → l.find? (fun x => m.sessionId == x.sessionId) = some m := by
  intro l
  induction l with
  | nil => intro _ hm; exact absurd hm (List.not_mem_nil m)
  | cons x xs ih =>
      intro hp hm
      rcases List.pairwise_cons.mp hp with ⟨hx, hxs⟩
      rcases List.mem_cons.mp hm with rfl | hm'
      · simp [List.find?]
      · have hne : m.sessionId ≠ x.sessionId := fun he => hx m hm' he.symm
        simp only [List.find?]
        rw [show (m.sessionId == x.sessionId) = false from beq_eq_false_iff_ne.mpr hne]
        exact ih hxs hm'

theorem lookup_of_kvSet_self {α : Type} (k : String) (v : α) :
    ∀ l : List (String × α), List.lookup k (kvSet l k v) = some v := by
  intro l
  induction l with
  | nil => simp [kvSet, List.lookup]
  | cons p rest ih =>
      simp only [kvSet]
      split
      · simp [List.lookup]
      · next hne =>
          simp only [List.lookup]
          cases h : (k == p.1) with
          | true => exact absurd (beq_iff_eq.mpr (beq_iff_eq.mp h).symm) hne
          | false => exact ih

theorem lookup_of_kvSet_other {α : Type} (k k' : String) (v : α) (hne : k' ≠ k) :
    ∀ l : List (String × α), List.lookup k' (kvSet l k v) = List.lookup k' l := by
  intro l
  induction l with
  | nil => simp [kvSet, List.lookup, beq_eq_false_iff_ne.mpr hne]
  | cons p rest ih =>
      simp only [kvSet]
      split
      · next heq =>
          have hk : p.1 = k := beq_iff_eq.mp heq
          simp only [List.lookup, beq_eq_false_iff_ne.mpr hne, hk]
      · simp only [List.lookup]
        cases h : (k' == p.1) with
        | true => rfl
        | false => exact ih

theorem kvSet_of_lookup_none {α : Type} (k : String) (v : α) :
    ∀ l : List (String × α), List.lookup k l = none → kvSet l k v = l ++ [(k, v)] := by
  intro l
  induction l with
  | nil => intro _; rfl
  | cons p rest ih =>
      intro h
      simp only [List.lookup] at h
      cases hk : (k == p.1) with
      | true => rw [hk] at h; cases h
      | false =>
          rw [hk] at h
          have hne : ¬ (p.1 == k) = true := by
            intro hb
            rw [beq_iff_eq.mp hb] at hk
            simp at hk
          simp only [kvSet, if_neg hne, ih h, List.cons_append]

theorem lookup_of_kvRemove_self {α : Type} (k : String) :
    ∀ l : List (String × α), List.lookup k (kvRemove l k) = none := by
  intro l
  induction l with
  | nil => rfl
  | cons p rest ih =>
      simp only [kvRemove, List.filter]
      cases hk : (p.1 == k) with
      | true => simpa [kvRemove] using ih
      | false =>
          simp only [Bool.not_false, List.lookup]
          have : (k == p.1) = false := by
            apply beq_eq_false_iff_ne.mpr
            intro he
            rw [he] at hk
            simp at hk
          rw [this]
          simpa [kvRemove] using ih

theorem lookup_of_kvRemove_other {α : Type} (k k' : String) (hne : k' ≠ k) :
    ∀ l : List (String × α), List.lookup k' (kvRemove l k) = List.lookup k' l := by
  intro l
  induction l with
  | nil => rfl
  | cons p rest ih =>
      simp only [kvRemove, List.filter]
      cases hk : (p.1 == k) with
      | true =>
          have hp : p.1 = k := beq_iff_eq.mp hk
          simp only [List.lookup]
          rw [show (k' == p.1) = false from beq_eq_false_iff_ne.mpr (hp ▸ hne)]
          simpa [kvRemove] using ih
      | false =>
          simp only [Bool.not_false, List.lookup]
          cases h : (k' == p.1) with
          | true => rfl
          | false => simpa [kvRemove] using ih

theorem lookup_append_left {α : Type} (k : String) (v : α) :
    ∀ (l₁ l₂ : List (String × α)), List.lookup k l₁ = some v →
      List.lookup k (l₁ ++ l₂) = some v := by
  intro l₁ l₂ h
  induction l₁ with
  | nil => cases h
  | cons p rest ih =>
      simp only [List.lookup] at h ⊢
      cases hk : (k == p.1) with
      | true => rw [hk] at h; simpa using h
      | false => rw [hk] at h; exact ih h

theorem lookup_append_right {α : Type} (k : String) :
    ∀ (l₁ l₂ : List (String × α)), List.lookup k l₁ = none →
      List.lookup k (l₁ ++ l₂) = List.lookup k l₂ := by
  intro l₁ l₂ h
  induction l₁ with
  | nil => rfl
  | cons p rest ih =>
      simp only [List.lookup] at h ⊢
      cases hk : (k == p.1) with
      | true => rw [hk] at h; cases h
      | false => rw [hk] at h; exact ih h

theorem kvSet_split {α : Type} (k : String) (v w : α) :
    ∀ (l₁ l₂ : List (String × α)), (∀ p ∈ l₁, p.1 ≠ k) →
      kvSet (l₁ ++ (k, w) :: l₂) k v = l₁ ++ (k, v) :: l₂ := by
  intro l₁ l₂ h
  induction l₁ with
  | nil => simp [kvSet]
  | cons p rest ih =>
      have hp : ¬ (p.1 == k) = true := by
        simp only [beq_iff_eq]
        exact h p (List.mem_cons_self p rest)
      simp only [List.cons_append, kvSet, if_neg hp]
      exact congrArg (p :: ·) (ih (fun q hq => h q (List.mem_cons_of_mem p hq)))

/-- Splitting characterisation of the file backend's first-match update
loop. -/
theorem listUpdateFirst_split (sid : String) (f : SessionMeta → SessionMeta) :
    ∀ (l : List SessionMeta) (m : SessionMeta),
      l.find? (fun x => x.sessionId == sid) = some m →
      ∃ a b, l = a ++ m :: b ∧ (∀ x ∈ a, x.sessionId ≠ sid) ∧ m.sessionId = sid ∧
        (listUpdateFirst sid f l).1 = a ++ f m :: b ∧
        (listUpdateFirst sid f l).2 = some (f m) := by
  intro l
  induction l with
  | nil => intro m hm; cases hm
  | cons x xs ih =>
      intro m hm
      simp only [List.find?] at hm
      cases hx : (x.sessionId == sid) with
      | true =>
          rw [hx] at hm
          have hxm : x = m := by cases hm; rfl
          subst hxm
          refine ⟨[], xs, by simp, by simp, beq_iff_eq.mp hx, ?_, ?_⟩
          · simp [listUpdateFirst, hx]
          · simp [listUpdateFirst, hx]
      | false =>
          rw [hx] at hm
          rcases ih m hm with ⟨a, b, hsplit, ha, hmsid, h1, h2⟩
          refine ⟨x :: a, b, by rw [hsplit]; rfl, ?_, hmsid, ?_, ?_⟩
          · intro y hy
            rcases List.mem_cons.mp hy with rfl | hy'
            · exact fun he => by rw [he] at hx; simp at hx
            · exact ha y hy'
          · simp only [listUpdateFirst, if_neg (by simp [hx] : ¬ (x.sessionId == sid) = true)]
            rw [h1, List.cons_append]
          · simp only [listUpdateFirst, if_neg (by simp [hx] : ¬ (x.sessionId == sid) = true)]
            rw [h2]

/-- Replacing the element at a split point preserves a pairwise relation,
given the new element relates the same way to both sides. -/
theorem pairwise_mid_of {R : SessionMeta → SessionMeta → Prop}
    (a b : List SessionMeta) (m m' : SessionMeta)
    (h : (a ++ m :: b).Pairwise R)
    (h1 : ∀ x ∈ a, R x m') (h2 : ∀ y ∈ b, R m' y) :
    (a ++ m' :: b).Pairwise R := by
  rcases List.pairwise_append.mp h with ⟨hpa, hpmb, hcross⟩
  rcases List.pairwise_cons.mp hpmb with ⟨_, hpb⟩
  refine List.pairwise_append.mpr ⟨hpa, List.pairwise_cons.mpr ⟨h2, hpb⟩, ?_⟩
  intro x hx y hy
  rcases List.mem_cons.mp hy with rfl | hy'
  · exact h1 x hx
  · exact hcross x hx y (List.mem_cons_of_mem m hy')

/-! ### The simulation relation between the two backends -/

structure StoreRel (rs : RedisState) (fs : FileState) (t : Nat) : Prop where
  kvEq : rs.kv = fs.index.map pairOfMeta
  zsetEq : rs.zset = fs.index.map zentryOfMeta
  sidsNodup : fs.index.Pairwise (fun a b => a.sessionId ≠ b.sessionId)
  updsNodup : fs.index.Pairwise (fun a b => a.updatedAt ≠ b.updatedAt)
  updsLt : ∀ m ∈ fs.index, m.updatedAt < t
  sidsNE : ∀ m ∈ fs.index, m.sessionId ≠ ""
  filesDom : ∀ sid : String, (List.lookup sid fs.files).isSome =
      (fs.index.find? (fun m => sid == m.sessionId)).isSome
  filesContent : ∀ m ∈ fs.index,
      List.lookup m.sessionId fs.files =
        some (FileEvent.metaEv m ::
          ((List.lookup m.sessionId rs.toolLists).getD []).map FileEvent.toolEv)
  toolDom : ∀ sid : String, fs.index.find? (fun m => sid == m.sessionId) = none →
      List.lookup sid rs.toolLists = none

theorem storeRel_empty : StoreRel emptyRedis emptyFile 0 := by
  refine ⟨rfl, rfl, List.Pairwise.nil, List.Pairwise.nil, ?_, ?_, ?_, ?_, ?_⟩
  · intro m hm; exact absurd hm (List.not_mem_nil m)
  · intro m hm; exact absurd hm (List.not_mem_nil m)
  · intro _; rfl
  · intro m hm; exact absurd hm (List.not_mem_nil m)
  · intro _ _; rfl

theorem storeRel_mono_t {rs fs t} (h : StoreRel rs fs t) : StoreRel rs fs (t + 1) :=
  ⟨h.kvEq, h.zsetEq, h.sidsNodup, h.updsNodup,
   fun m hm => Nat.lt_succ_of_lt (h.updsLt m hm), h.sidsNE,
   h.filesDom, h.filesContent, h.toolDom⟩

/-- Under the relation, a Redis metadata lookup is the file backend's index
search. -/
theorem rel_lookup_kv {rs fs t} (h : StoreRel rs fs t) (sid : String) :
    List.lookup sid rs.kv = fs.index.find? (fun m => sid == m.sessionId) := by
  have : rs.kv = fs.index.map (fun m => (m.sessionId, id m)) := h.kvEq
  rw [this, lookup_keyed id sid fs.index, Option.map_id]
  rfl

/-- Under the relation, both backends see the same `get_session` result. -/
theorem rel_getSession {rs fs t} (h : StoreRel rs fs t) (sid : String) :
    List.lookup sid rs.kv = fileGetSession fs sid := by
  rw [rel_lookup_kv h sid, fileGetSession]
  exact find?_ext _ _ (fun m => by
    by_cases he : sid = m.sessionId
    · simp [he]
    · simp [beq_eq_false_iff_ne.mpr he, beq_eq_false_iff_ne.mpr (Ne.symm he)]) fs.index

/-- Under the relation, `session_exists` agrees. -/
theorem rel_exists {rs fs t} (h : StoreRel rs fs t) (sid : String) :
    redisSessionExists rs sid = fileSessionExists fs sid := by
  rw [redisSessionExists, fileSessionExists, rel_lookup_kv h sid, h.filesDom sid]

theorem bool_eq_of_iff {a b : Bool} (h : a = true ↔ b = true) : a = b := by
  cases a <;> cases b <;> simp_all

theorem isSome_false_eq_none {α : Type} {o : Option α} (h : o.isSome = false) : o = none := by
  cases o with
  | none => rfl
  | some v => cases h

theorem find?_sid_comm (sid : String) (l : List SessionMeta) :
    l.find? (fun m => sid == m.sessionId) = l.find? (fun m => m.sessionId == sid) :=
  find?_ext _ _ (fun m => by
    by_cases he : sid = m.sessionId
    · simp [he]
    · simp [beq_eq_false_iff_ne.mpr he, beq_eq_false_iff_ne.mpr (Ne.symm he)]) l

theorem listUpdateFirst_none (sid : String) (f : SessionMeta → SessionMeta) :
    ∀ l : List SessionMeta, l.find? (fun x => x.sessionId == sid) = none →
      listUpdateFirst sid f l = (l, none) := by
  intro l
  induction l with
  | nil => intro _; rfl
  | cons x xs ih =>
      intro hfind
      simp only [List.find?] at hfind
      cases hx : (x.sessionId == sid) with
      | true => rw [hx] at hfind; cases hfind
      | false =>
          rw [hx] at hfind
          simp only [listUpdateFirst, if_neg (by simp [hx] : ¬ (x.sessionId == sid) = true),
            ih hfind]

theorem toolEventsOf_canonical (m : SessionMeta) :
    ∀ tcs : List ToolCallRec,
      toolEventsOf (FileEvent.metaEv m :: tcs.map FileEvent.toolEv) = tcs := by
  intro tcs
  simp only [toolEventsOf, List.filterMap_cons]
  induction tcs with
  | nil => rfl
  | cons tc rest ih => simpa [List.filterMap_cons] using ih

theorem find?_isSome_mid (a b : List SessionMeta) (m m' : SessionMeta)
    (hsid : m'.sessionId = m.sessionId) (s : String) :
    ((a ++ m' :: b).find? (fun x => s == x.sessionId)).isSome =
      ((a ++ m :: b).find? (fun x => s == x.sessionId)).isSome := by
  apply bool_eq_of_iff
  rw [List.find?_isSome, List.find?_isSome]
  constructor
  · rintro ⟨x, hx, hpx⟩
    rcases List.mem_append.mp hx with hx' | hx'
    · exact ⟨x, List.mem_append.mpr (Or.inl hx'), hpx⟩
    · rcases List.mem_cons.mp hx' with rfl | hx''
      · exact ⟨m, List.mem_append.mpr (Or.inr (List.mem_cons_self m b)),
          by rw [← hsid]; exact hpx⟩
      · exact ⟨x, List.mem_append.mpr (Or.inr (List.mem_cons_of_mem m hx'')), hpx⟩
  · rintro ⟨x, hx, hpx⟩
    rcases List.mem_append.mp hx with hx' | hx'
    · exact ⟨x, List.mem_append.mpr (Or.inl hx'), hpx⟩
    · rcases List.mem_cons.mp hx' with rfl | hx''
      · exact ⟨m', List.mem_append.mpr (Or.inr (List.mem_cons_self m' b)),
          by rw [hsid]; exact hpx⟩
      · exact ⟨x, List.mem_append.mpr (Or.inr (List.mem_cons_of_mem m' hx'')), hpx⟩

/-! ### `create_session` preserves the relation -/

theorem rel_create {rs fs t} (h : StoreRel rs fs t) (sid title : String)
    (hne : sid ≠ "")
    (hfresh : fs.index.find? (fun m => sid == m.sessionId) = none) :
    StoreRel (redisCreateSession rs t sid title).1 (fileCreateSession fs t sid title).1
      (t + 1) ∧
    (redisCreateSession rs t sid title).2 = (fileCreateSession fs t sid title).2 := by
  have hnotmem : ∀ m ∈ fs.index, sid ≠ m.sessionId := by
    intro m hm
    have := List.find?_eq_none.mp hfresh m hm
    simpa [beq_iff_eq] using this
  have hkvnone : List.lookup sid rs.kv = none := by rw [rel_lookup_kv h sid, hfresh]
  have hznone : List.lookup sid rs.zset = none := by
    have hz : rs.zset = fs.index.map (fun m => (m.sessionId, SessionMeta.updatedAt m)) :=
      h.zsetEq
    rw [hz, lookup_keyed SessionMeta.updatedAt sid fs.index, hfresh]
    rfl
  have hfnone : List.lookup sid fs.files = none := by
    apply isSome_false_eq_none
    rw [h.filesDom sid, hfresh]
    rfl
  have htnone : List.lookup sid rs.toolLists = none := h.toolDom sid hfresh
  have hmetasid : (mkNewMeta sid title t).sessionId = sid := rfl
  have hmetaupd : (mkNewMeta sid title t).updatedAt = t := rfl
  constructor
  · simp only [redisCreateSession, fileCreateSession, fileAppend, hfnone, Option.getD_none,
      List.nil_append]
    refine ⟨?_, ?_, ?_, ?_, ?_, ?_, ?_, ?_, ?_⟩
    · rw [kvSet_of_lookup_none sid _ rs.kv hkvnone, h.kvEq, List.map_append]
      rfl
    · rw [kvSet_of_lookup_none sid _ rs.zset hznone, h.zsetEq, List.map_append]
      rfl
    · refine List.pairwise_append.mpr ⟨h.sidsNodup, by simp, ?_⟩
      intro x hx y hy
      rcases List.mem_singleton.mp hy with rfl
      rw [hmetasid]
      exact fun he => hnotmem x hx he.symm
    · refine List.pairwise_append.mpr ⟨h.updsNodup, by simp, ?_⟩
      intro x hx y hy
      rcases List.mem_singleton.mp hy with rfl
      rw [hmetaupd]
      exact Nat.ne_of_lt (h.updsLt x hx)
    · intro m hm
      rcases List.mem_append.mp hm with hm' | hm'
      · exact Nat.lt_succ_of_lt (h.updsLt m hm')
      · rcases List.mem_singleton.mp hm' with rfl
        rw [hmetaupd]; exact Nat.lt_succ_self t
    · intro m hm
      rcases List.mem_append.mp hm with hm' | hm'
      · exact h.sidsNE m hm'
      · rcases List.mem_singleton.mp hm' with rfl
        rw [hmetasid]; exact hne
    · intro s
      by_cases hs : s = sid
      · subst hs
        rw [lookup_of_kvSet_self]
        have hfind : (fs.index ++ [mkNewMeta s title t]).find?
            (fun m => s == m.sessionId) = some (mkNewMeta s title t) := by
          rw [List.find?_append, hfresh]
          simp [List.find?, hmetasid]
        rw [hfind]
        rfl
      · rw [lookup_of_kvSet_other sid s _ hs]
        rw [List.find?_append]
        have hnone1 : [mkNewMeta sid title t].find? (fun m => s == m.sessionId) = none := by
          simp [List.find?, hmetasid, beq_eq_false_iff_ne.mpr hs]
        rw [hnone1, Option.or_none]
        exact h.filesDom s
    · intro m hm
      rcases List.mem_append.mp hm with hm' | hm'
      · have hmsid : m.sessionId ≠ sid := fun he => hnotmem m hm' he.symm
        rw [lookup_of_kvSet_other sid m.sessionId _ hmsid]
        exact h.filesContent m hm'
      · rcases List.mem_singleton.mp hm' with rfl
        rw [hmetasid, lookup_of_kvSet_self, htnone]
        rfl
    · intro s hs
      rw [List.find?_append] at hs
      cases hfi : fs.index.find? (fun m => s == m.sessionId) with
      | some v => rw [hfi] at hs; simp [Option.or] at hs
      | none => exact h.toolDom s hfi
  · rfl

/-! ### `delete_session` preserves the relation -/

theorem rel_delete {rs fs t} (h : StoreRel rs fs t) (sid : String) :
    StoreRel (redisDeleteSession rs sid).1 (fileDeleteSession fs sid).1 t ∧
    (redisDeleteSession rs sid).2 = (fileDeleteSession fs sid).2 := by
  cases hfind : fs.index.find? (fun m => sid == m.sessionId) with
  | none =>
      have hkvnone : List.lookup sid rs.kv = none := by rw [rel_lookup_kv h sid, hfind]
      have hfilter : fs.index.filter (fun m => !(m.sessionId == sid)) = fs.index := by
        apply List.filter_eq_self.mpr
        intro m hm
        have := List.find?_eq_none.mp hfind m hm
        simp only [beq_iff_eq] at this
        simp [beq_eq_false_iff_ne.mpr (fun he => this he.symm)]
      have hred : redisDeleteSession rs sid = (rs, false) := by
        simp [redisDeleteSession, hkvnone]
      have hfil : fileDeleteSession fs sid = (fs, false) := by
        simp only [fileDeleteSession, hfilter]
        simp
      rw [hred, hfil]
      exact ⟨h, rfl⟩
  | some m =>
      have hmmem : m ∈ fs.index := List.mem_of_find?_eq_some hfind
      have hmsid : m.sessionId = sid := by
        have := List.find?_some hfind
        exact (beq_iff_eq.mp this).symm
      have hkvsome : List.lookup sid rs.kv = some m := by rw [rel_lookup_kv h sid, hfind]
      have hlt : (fs.index.filter (fun x => !(x.sessionId == sid))).length ≠
          fs.index.length := by
        intro hlen
        have heq := (List.filter_sublist (l := fs.index)
          (p := fun x => !(x.sessionId == sid))).eq_of_length hlen
        have hm' : m ∈ fs.index.filter (fun x => !(x.sessionId == sid)) := by
          rw [heq]; exact hmmem
        have := List.of_mem_filter hm'
        simp [hmsid] at this
      have hred : redisDeleteSession rs sid =
          ({ kv := kvRemove rs.kv sid, zset := kvRemove rs.zset sid,
             toolLists := kvRemove rs.toolLists sid }, true) := by
        simp [redisDeleteSession, hkvsome]
      have hfil : fileDeleteSession fs sid =
          ({ index := fs.index.filter (fun x => !(x.sessionId == sid)),
             files := kvRemove fs.files sid }, true) := by
        simp only [fileDeleteSession]
        rw [if_neg (by simpa using hlt)]
      rw [hred, hfil]
      have hmemf : ∀ x ∈ fs.index.filter (fun y => !(y.sessionId == sid)), x ∈ fs.index :=
        fun x hx => List.mem_of_mem_filter hx
      have hsidf : ∀ x ∈ fs.index.filter (fun y => !(y.sessionId == sid)),
          x.sessionId ≠ sid := by
        intro x hx
        have := List.of_mem_filter hx
        simpa [beq_iff_eq] using this
      refine ⟨⟨?_, ?_, ?_, ?_, ?_, ?_, ?_, ?_, ?_⟩, rfl⟩
      · show kvRemove rs.kv sid = _
        rw [h.kvEq, kvRemove, List.filter_map]
        rfl
      · show kvRemove rs.zset sid = _
        rw [h.zsetEq, kvRemove, List.filter_map]
        rfl
      · exact h.sidsNodup.sublist (List.filter_sublist fs.index)
      · exact h.updsNodup.sublist (List.filter_sublist fs.index)
      · exact fun x hx => h.updsLt x (hmemf x hx)
      · exact fun x hx => h.sidsNE x (hmemf x hx)
      · intro s
        by_cases hs : s = sid
        · subst hs
          rw [lookup_of_kvRemove_self]
          have : (fs.index.filter (fun y => !(y.sessionId == s))).find?
              (fun x => s == x.sessionId) = none := by
            apply List.find?_eq_none.mpr
            intro x hx
            simp [beq_eq_false_iff_ne.mpr (Ne.symm (hsidf x hx))]
          rw [this]
          rfl
        · rw [lookup_of_kvRemove_other sid s hs]
          rw [h.filesDom s]
          apply bool_eq_of_iff
          rw [List.find?_isSome, List.find?_isSome]
          constructor
          · rintro ⟨x, hx, hpx⟩
            refine ⟨x, List.mem_filter.mpr ⟨hx, ?_⟩, hpx⟩
            have hxs : x.sessionId = s := (beq_iff_eq.mp hpx).symm
            simp [beq_eq_false_iff_ne.mpr (fun he => hs (hxs ▸ he))]
          · rintro ⟨x, hx, hpx⟩
            exact ⟨x, List.mem_of_mem_filter hx, hpx⟩
      · intro x hx
        rw [lookup_of_kvRemove_other sid x.sessionId (hsidf x hx),
          lookup_of_kvRemove_other sid x.sessionId (hsidf x hx)]
        exact h.filesContent x (hmemf x hx)
      · intro s hs
        by_cases hss : s = sid
        · subst hss
          exact lookup_of_kvRemove_self s rs.toolLists
        · rw [lookup_of_kvRemove_other sid s hss]
          apply h.toolDom s
          apply List.find?_eq_none.mpr
          intro x hx
          by_cases hxs : x.sessionId = sid
          · simp [beq_eq_false_iff_ne.mpr (fun he => hss (he.trans hxs))]
          · have hxf : x ∈ fs.index.filter (fun y => !(y.sessionId == sid)) :=
              List.mem_filter.mpr ⟨hx, by simp [beq_eq_false_iff_ne.mpr hxs]⟩
            have := List.find?_eq_none.mp hs x hxf
            exact this

/-! ### `update_session` preserves the relation -/

theorem rel_update {rs fs t} (h : StoreRel rs fs t) (sid : String)
    (ti pv : Option String) (mc : Option Nat) :
    StoreRel (redisUpdateSession rs t sid ti pv mc).1
      (fileUpdateSession fs t sid ti pv mc).1 (t + 1) ∧
    (redisUpdateSession rs t sid ti pv mc).2 = (fileUpdateSession fs t sid ti pv mc).2 := by
  cases hfind : fs.index.find? (fun m => sid == m.sessionId) with
  | none =>
      have hkvnone : List.lookup sid rs.kv = none := by rw [rel_lookup_kv h sid, hfind]
      have hfind2 : fs.index.find? (fun m => m.sessionId == sid) = none := by
        rw [← find?_sid_comm]; exact hfind
      have hupd := listUpdateFirst_none sid (applyMetaUpdate ti pv mc t) fs.index hfind2
      have hred : redisUpdateSession rs t sid ti pv mc = (rs, none) := by
        simp [redisUpdateSession, hkvnone]
      have hfil : fileUpdateSession fs t sid ti pv mc = (fs, none) := by
        simp [fileUpdateSession, hupd]
      rw [hred, hfil]
      exact ⟨storeRel_mono_t h, rfl⟩
  | some m =>
      have hmmem : m ∈ fs.index := List.mem_of_find?_eq_some hfind
      have hmsid : m.sessionId = sid := by
        have := List.find?_some hfind
        exact (beq_iff_eq.mp this).symm
      have hkvsome : List.lookup sid rs.kv = some m := by rw [rel_lookup_kv h sid, hfind]
      have hfind2 : fs.index.find? (fun m => m.sessionId == sid) = some m := by
        rw [← find?_sid_comm]; exact hfind
      obtain ⟨a, b, hsplit, ha, _, h1, h2⟩ :=
        listUpdateFirst_split sid (applyMetaUpdate ti pv mc t) fs.index m hfind2
      have hfmsid : (applyMetaUpdate ti pv mc t m).sessionId = sid := hmsid
      have hfmupd : (applyMetaUpdate ti pv mc t m).updatedAt = t := rfl
      have hbsid : ∀ y ∈ b, y.sessionId ≠ sid := by
        have hp := h.sidsNodup
        rw [hsplit] at hp
        rcases List.pairwise_append.mp hp with ⟨_, hpmb, _⟩
        rcases List.pairwise_cons.mp hpmb with ⟨hhead, _⟩
        intro y hy he
        exact hhead y hy (hmsid.trans he.symm)
      have hamem : ∀ x ∈ a, x ∈ fs.index := by
        intro x hx; rw [hsplit]; exact List.mem_append.mpr (Or.inl hx)
      have hbmem : ∀ y ∈ b, y ∈ fs.index := by
        intro y hy; rw [hsplit]
        exact List.mem_append.mpr (Or.inr (List.mem_cons_of_mem m hy))
      have htcs : List.lookup sid fs.files =
          some (FileEvent.metaEv m ::
            ((List.lookup sid rs.toolLists).getD []).map FileEvent.toolEv) := by
        have := h.filesContent m hmmem
        rw [hmsid] at this
        exact this
      have hred : redisUpdateSession rs t sid ti pv mc =
          ({ rs with kv := kvSet rs.kv sid (applyMetaUpdate ti pv mc t m),
                     zset := kvSet rs.zset sid t }, some (applyMetaUpdate ti pv mc t m)) := by
        simp [redisUpdateSession, hkvsome]
      have hfil : fileUpdateSession fs t sid ti pv mc =
          ({ index := a ++ applyMetaUpdate ti pv mc t m :: b,
             files := kvSet fs.files sid (FileEvent.metaEv (applyMetaUpdate ti pv mc t m) ::
               ((List.lookup sid rs.toolLists).getD []).map FileEvent.toolEv) },
            some (applyMetaUpdate ti pv mc t m)) := by
        simp only [fileUpdateSession, h2, h1, htcs, updateFileMeta, replaceFirstMeta,
          Option.getD_some]
      rw [hred, hfil]
      have hkeysa : ∀ p ∈ a.map pairOfMeta, p.1 ≠ sid := by
        intro p hp
        rcases List.mem_map.mp hp with ⟨x, hx, rfl⟩
        exact ha x hx
      have hkeysaz : ∀ p ∈ a.map zentryOfMeta, p.1 ≠ sid := by
        intro p hp
        rcases List.mem_map.mp hp with ⟨x, hx, rfl⟩
        exact ha x hx
      refine ⟨⟨?_, ?_, ?_, ?_, ?_, ?_, ?_, ?_, ?_⟩, rfl⟩
      · show kvSet rs.kv sid (applyMetaUpdate ti pv mc t m) = _
        rw [h.kvEq, hsplit, List.map_append, List.map_cons, List.map_append, List.map_cons]
        have hpm : pairOfMeta m = (sid, m) := by rw [pairOfMeta, hmsid]
        have hpfm : pairOfMeta (applyMetaUpdate ti pv mc t m) =
            (sid, applyMetaUpdate ti pv mc t m) := by rw [pairOfMeta, hfmsid]
        rw [hpm, hpfm]
        exact kvSet_split sid _ m (a.map pairOfMeta) (b.map pairOfMeta) hkeysa
      · show kvSet rs.zset sid t = _
        rw [h.zsetEq, hsplit, List.map_append, List.map_cons, List.map_append, List.map_cons]
        have hpm : zentryOfMeta m = (sid, m.updatedAt) := by rw [zentryOfMeta, hmsid]
        have hpfm : zentryOfMeta (applyMetaUpdate ti pv mc t m) = (sid, t) := by
          rw [zentryOfMeta, hfmsid, hfmupd]
        rw [hpm, hpfm]
        exact kvSet_split sid _ m.updatedAt (a.map zentryOfMeta) (b.map zentryOfMeta) hkeysaz
      · refine pairwise_mid_of a b m _ (hsplit ▸ h.sidsNodup) ?_ ?_
        · intro x hx
          rw [hfmsid]; exact ha x hx
        · intro y hy
          rw [hfmsid]; exact fun he => hbsid y hy he.symm
      · refine pairwise_mid_of a b m _ (hsplit ▸ h.updsNodup) ?_ ?_
        · intro x hx
          rw [hfmupd]; exact Nat.ne_of_lt (h.updsLt x (hamem x hx))
        · intro y hy
          rw [hfmupd]; exact (Nat.ne_of_lt (h.updsLt y (hbmem y hy))).symm
      · intro x hx
        rcases List.mem_append.mp hx with hx' | hx'
        · exact Nat.lt_succ_of_lt (h.updsLt x (hamem x hx'))
        · rcases List.mem_cons.mp hx' with rfl | hx''
          · rw [hfmupd]; exact Nat.lt_succ_self t
          · exact Nat.lt_succ_of_lt (h.updsLt x (hbmem x hx''))
      · intro x hx
        rcases List.mem_append.mp hx with hx' | hx'
        · exact h.sidsNE x (hamem x hx')
        · rcases List.mem_cons.mp hx' with rfl | hx''
          · rw [hfmsid, ← hmsid]; exact h.sidsNE m hmmem
          · exact h.sidsNE x (hbmem x hx'')
      · intro s
        by_cases hs : s = sid
        · subst hs
          rw [lookup_of_kvSet_self]
          have : ((a ++ applyMetaUpdate ti pv mc t m :: b).find?
              (fun x => s == x.sessionId)).isSome = true := by
            rw [List.find?_isSome]
            exact ⟨applyMetaUpdate ti pv mc t m,
              List.mem_append.mpr (Or.inr (List.mem_cons_self _ b)),
              by rw [hfmsid]; exact beq_iff_eq.mpr rfl⟩
          rw [this]
          rfl
        · rw [lookup_of_kvSet_other sid s _ hs]
          rw [find?_isSome_mid a b m (applyMetaUpdate ti pv mc t m) (hfmsid.trans hmsid.symm) s]
          rw [← hsplit]
          exact h.filesDom s
      · intro x hx
        rcases List.mem_append.mp hx with hx' | hx'
        · have hxsid : x.sessionId ≠ sid := ha x hx'
          rw [lookup_of_kvSet_other sid x.sessionId _ hxsid]
          exact h.filesContent x (hamem x hx')
        · rcases List.mem_cons.mp hx' with rfl | hx''
          · rw [hfmsid, lookup_of_kvSet_self]
          · have hxsid : x.sessionId ≠ sid := hbsid x hx''
            rw [lookup_of_kvSet_other sid x.sessionId _ hxsid]
            exact h.filesContent x (hbmem x hx'')
      · intro s hs
        have hiso := find?_isSome_mid a b m (applyMetaUpdate ti pv mc t m)
          (hfmsid.trans hmsid.symm) s
        rw [hs] at hiso
        have hnone := isSome_false_eq_none hiso.symm
        rw [← hsplit] at hnone
        exact h.toolDom s hnone

/-! ### `list_sessions` agrees under the relation -/

theorem ascByUpd_total : ∀ a b : SessionMeta, ascByUpd a b = true ∨ ascByUpd b a = true := by
  intro a b
  simp only [ascByUpd, decide_eq_true_eq]
  omega

theorem ascByUpd_trans : ∀ a b c : SessionMeta,
    ascByUpd a b = true → ascByUpd b c = true → ascByUpd a c = true := by
  intro a b c
  simp only [ascByUpd, decide_eq_true_eq]
  omega

theorem descByUpd_total : ∀ a b : SessionMeta, descByUpd a b = true ∨ descByUpd b a = true := by
  intro a b
  simp only [descByUpd, decide_eq_true_eq]
  omega

theorem descByUpd_trans : ∀ a b c : SessionMeta,
    descByUpd a b = true → descByUpd b c = true → descByUpd a c = true := by
  intro a b c
  simp only [descByUpd, decide_eq_true_eq]
  omega

theorem rel_updInj {rs fs t} (h : StoreRel rs fs t) :
    ∀ x ∈ fs.index, ∀ y ∈ fs.index, x.updatedAt = y.updatedAt → x = y := by
  apply List.inj_on_of_nodup_map
  rw [List.Nodup, List.pairwise_map]
  exact h.updsNodup

theorem zle_agree {rs fs t} (h : StoreRel rs fs t) :
    ∀ x ∈ fs.index, ∀ y ∈ fs.index,
      zleAsc (zentryOfMeta x) (zentryOfMeta y) = ascByUpd x y := by
  intro x hx y hy
  by_cases he : x.updatedAt = y.updatedAt
  · have hxy : x = y := rel_updInj h x hx y hy he
    subst hxy
    simp [zleAsc, zentryOfMeta, ascByUpd]
  · have hb : ((x.updatedAt == y.updatedAt) && decide (x.sessionId ≤ y.sessionId)) = false := by
      simp [beq_eq_false_iff_ne.mpr he]
    simp only [zleAsc, zentryOfMeta, ascByUpd, hb, Bool.or_false]
    rw [decide_eq_decide]
    omega

theorem rel_sorted_asc {rs fs t} (h : StoreRel rs fs t) :
    sortBy zleAsc rs.zset = (sortBy ascByUpd fs.index).map zentryOfMeta := by
  rw [h.zsetEq]
  exact sortBy_map ascByUpd zleAsc zentryOfMeta fs.index (zle_agree h)

theorem rel_A_strict {rs fs t} (h : StoreRel rs fs t) :
    (sortBy ascByUpd fs.index).Pairwise (fun a b => a.updatedAt < b.updatedAt) := by
  have hle := sortBy_pairwise ascByUpd ascByUpd_total ascByUpd_trans fs.index
  have hperm := perm_sortBy ascByUpd fs.index
  have hne : (sortBy ascByUpd fs.index).Pairwise (fun a b => a.updatedAt ≠ b.updatedAt) :=
    (hperm.pairwise_iff (fun hab => hab.symm)).mpr h.updsNodup
  exact (hle.and hne).imp (fun hab => by
    have h1 := of_decide_eq_true hab.1
    omega)

theorem eq_of_perm_of_strict_sorted_desc (key : α → Nat) {l₁ l₂ : List α}
    (hp : List.Perm l₁ l₂)
    (h₁ : l₁.Pairwise (fun a b => key b < key a))
    (h₂ : l₂.Pairwise (fun a b => key b < key a)) : l₁ = l₂ := by
  haveI : IsAntisymm α (fun a b => key b < key a) :=
    ⟨fun a b h1 h2 => absurd (lt_trans h1 h2) (lt_irrefl _)⟩
  exact List.eq_of_perm_of_sorted hp h₁ h₂

theorem redisRange_take {α : Type} (limit : Nat) (hl : 1 ≤ limit) (l : List α) :
    redisRangeList l 0 ((limit : Int) - 1) = l.take limit := by
  simp only [redisRangeList]
  have h0 : ¬ ((0 : Int) < 0) := by omega
  have hstop : ¬ (((limit : Int) - 1) < 0) := by omega
  rw [if_neg h0, if_neg hstop]
  cases l with
  | nil =>
      have hcond : max (0 : Int) 0 > min ((limit : Int) - 1) ((([] : List α).length : Int) - 1) := by
        simp
      rw [if_pos hcond]
      simp
  | cons x xs =>
      have hn1 : 1 ≤ (x :: xs).length := by simp
      have hcond : ¬ (max (0 : Int) 0 >
          min ((limit : Int) - 1) (((x :: xs).length : Int) - 1)) := by
        have hx1 : (0 : Int) ≤ (limit : Int) - 1 := by omega
        have hx2 : (0 : Int) ≤ ((x :: xs).length : Int) - 1 := by
          have : (1 : Int) ≤ ((x :: xs).length : Int) := by exact_mod_cast hn1
          omega
        simp only [max_self]
        omega
      rw [if_neg hcond]
      have harg : (min ((limit : Int) - 1) (((x :: xs).length : Int) - 1) -
          max (0 : Int) 0 + 1).toNat = min limit (x :: xs).length := by
        simp only [max_self]
        omega
      rw [harg]
      have hzero : (max (0 : Int) 0).toNat = 0 := by simp
      rw [hzero, List.drop_zero]
      by_cases hc : limit ≤ (x :: xs).length
      · rw [Nat.min_eq_left hc]
      · have hlen : (x :: xs).length ≤ limit := Nat.le_of_not_le hc
        rw [Nat.min_eq_right hlen, List.take_length, List.take_of_length_le hlen]

theorem filterMap_lookup_of_mem {rs fs t} (h : StoreRel rs fs t) :
    ∀ L : List SessionMeta, (∀ m ∈ L, m ∈ fs.index) →
      (L.map SessionMeta.sessionId).filterMap (fun sid => List.lookup sid rs.kv) = L := by
  intro L
  induction L with
  | nil => intro _; rfl
  | cons m rest ih =>
      intro hL
      have hm : List.lookup m.sessionId rs.kv = some m := by
        rw [rel_lookup_kv h]
        exact find?_mem_unique m fs.index h.sidsNodup (hL m (List.mem_cons_self m rest))
      simp only [List.map_cons, List.filterMap_cons, hm]
      rw [ih (fun x hx => hL x (List.mem_cons_of_mem m hx))]

theorem rel_list {rs fs t} (h : StoreRel rs fs t) (limit : Nat) (hl : 1 ≤ limit) :
    redisListSessions rs limit = fileListSessions fs limit := by
  have hsortz : sortBy zleAsc rs.zset = (sortBy ascByUpd fs.index).map zentryOfMeta :=
    rel_sorted_asc h
  have hids : zrevrangeMembers rs.zset 0 ((limit : Int) - 1) =
      ((sortBy ascByUpd fs.index).reverse.take limit).map SessionMeta.sessionId := by
    rw [zrevrangeMembers, hsortz]
    have hmm : ((sortBy ascByUpd fs.index).map zentryOfMeta).map Prod.fst =
        (sortBy ascByUpd fs.index).map SessionMeta.sessionId := by
      rw [List.map_map]; rfl
    rw [hmm, ← List.map_reverse, redisRange_take limit hl, ← List.map_take]
  have hAstrict := rel_A_strict h
  have hrevstrict : (sortBy ascByUpd fs.index).reverse.Pairwise
      (fun a b => b.updatedAt < a.updatedAt) := List.pairwise_reverse.mpr hAstrict
  have htakestrict : ((sortBy ascByUpd fs.index).reverse.take limit).Pairwise
      (fun a b => b.updatedAt < a.updatedAt) :=
    hrevstrict.sublist (List.take_sublist limit _)
  have hD : sortBy descByUpd fs.index = (sortBy ascByUpd fs.index).reverse := by
    apply eq_of_perm_of_strict_sorted_desc SessionMeta.updatedAt
    · exact (perm_sortBy descByUpd fs.index).trans
        (((sortBy ascByUpd fs.index).reverse_perm.trans (perm_sortBy ascByUpd fs.index)).symm)
    · have hle := sortBy_pairwise descByUpd descByUpd_total descByUpd_trans fs.index
      have hne : (sortBy descByUpd fs.index).Pairwise
          (fun a b => a.updatedAt ≠ b.updatedAt) :=
        ((perm_sortBy descByUpd fs.index).pairwise_iff (fun hab => hab.symm)).mpr h.updsNodup
      exact (hle.and hne).imp (fun hab => by
        have h1 := of_decide_eq_true hab.1
        omega)
    · exact hrevstrict
  rw [redisListSessions, fileListSessions, hids, hD]
  by_cases hidx : fs.index = []
  · have hA : sortBy ascByUpd fs.index = [] := by rw [hidx]; rfl
    rw [hA]
    simp [sortBy]
  · have hAne : (sortBy ascByUpd fs.index).reverse.take limit ≠ [] := by
      have hlen : 0 < (sortBy ascByUpd fs.index).reverse.length := by
        rw [List.length_reverse, (perm_sortBy ascByUpd fs.index).length_eq]
        exact List.length_pos.mpr hidx
      intro hnil
      have hlt := congrArg List.length hnil
      rw [List.length_take] at hlt
      simp only [List.length_nil] at hlt
      omega
    have hne2 : ¬ (((sortBy ascByUpd fs.index).reverse.take limit).map
        SessionMeta.sessionId).isEmpty = true := by
      intro hb
      rw [List.isEmpty_iff] at hb
      exact hAne (List.map_eq_nil_iff.mp hb)
    rw [if_neg hne2]
    have hmemA : ∀ m ∈ (sortBy ascByUpd fs.index).reverse.take limit, m ∈ fs.index := by
      intro m hm
      have hm1 := (List.take_sublist limit _).mem hm
      rw [List.mem_reverse] at hm1
      exact (mem_sortBy ascByUpd m fs.index).mp hm1
    rw [filterMap_lookup_of_mem h _ hmemA]
    exact sortBy_eq_self descByUpd _ (htakestrict.imp (fun hab => by
      simp only [descByUpd, decide_eq_true_eq]
      omega))

/-! ### `enforce_session_limit`, tool calls, and the remaining operations -/

theorem rel_deleteLoop {t : Nat} :
    ∀ (ids : List String) (rs : RedisState) (fs : FileState), StoreRel rs fs t →
      (∀ sid ∈ ids, sid ≠ "") →
      StoreRel (redisDeleteLoop rs ids).1 (fileDeleteLoop fs ids).1 t ∧
      (redisDeleteLoop rs ids).2 = (fileDeleteLoop fs ids).2 := by
  intro ids
  induction ids with
  | nil => exact fun rs fs h _ => ⟨h, rfl⟩
  | cons sid rest ih =>
      intro rs fs h hne
      have hsid : sid ≠ "" := hne sid (List.mem_cons_self sid rest)
      have hsidE : sid.isEmpty = false := by
        cases hh : sid.isEmpty
        · rfl
        · exact absurd ((String.isEmpty_iff sid).mp hh) hsid
      have hd := rel_delete h sid
      have hrest := ih (redisDeleteSession rs sid).1 (fileDeleteSession fs sid).1 hd.1
        (fun s hs => hne s (List.mem_cons_of_mem sid hs))
      simp only [redisDeleteLoop, fileDeleteLoop, hsidE, Bool.false_eq_true, if_false]
      rw [← hd.2]
      cases hb : (redisDeleteSession rs sid).2 with
      | true =>
          simp only [if_true]
          exact ⟨hrest.1, by rw [hrest.2]⟩
      | false =>
          simp only [Bool.false_eq_true, if_false]
          exact hrest

theorem rel_enforce {rs fs t} (h : StoreRel rs fs t) (maxS : Nat) :
    StoreRel (redisEnforceLimit rs maxS).1 (fileEnforceLimit fs maxS).1 t ∧
    (redisEnforceLimit rs maxS).2 = (fileEnforceLimit fs maxS).2 := by
  have hcount : rs.zset.length = fs.index.length := by rw [h.zsetEq, List.length_map]
  by_cases hle : fs.index.length ≤ maxS
  · have h1 : redisEnforceLimit rs maxS = (rs, []) := by
      simp [redisEnforceLimit, hcount, hle]
    have h2 : fileEnforceLimit fs maxS = (fs, []) := by
      simp [fileEnforceLimit, hle]
    rw [h1, h2]
    exact ⟨h, rfl⟩
  · have hc1 : 1 ≤ fs.index.length - maxS := by omega
    have hids : zrangeMembers rs.zset 0 (((fs.index.length - maxS : Nat) : Int) - 1) =
        ((sortBy ascByUpd fs.index).take (fs.index.length - maxS)).map
          SessionMeta.sessionId := by
      rw [zrangeMembers, rel_sorted_asc h]
      have hmm : ((sortBy ascByUpd fs.index).map zentryOfMeta).map Prod.fst =
          (sortBy ascByUpd fs.index).map SessionMeta.sessionId := by
        rw [List.map_map]; rfl
      rw [hmm, redisRange_take (fs.index.length - maxS) hc1, ← List.map_take]
    have hmemA : ∀ m ∈ (sortBy ascByUpd fs.index).take (fs.index.length - maxS),
        m ∈ fs.index := by
      intro m hm
      exact (mem_sortBy ascByUpd m fs.index).mp ((List.take_sublist _ _).mem hm)
    have hnonempty : ∀ sid ∈ ((sortBy ascByUpd fs.index).take (fs.index.length - maxS)).map
        SessionMeta.sessionId, sid ≠ "" := by
      intro sid hsid
      rcases List.mem_map.mp hsid with ⟨m, hm, rfl⟩
      exact h.sidsNE m (hmemA m hm)
    have h1 : redisEnforceLimit rs maxS =
        redisDeleteLoop rs (((sortBy ascByUpd fs.index).take (fs.index.length - maxS)).map
          SessionMeta.sessionId) := by
      simp only [redisEnforceLimit, hcount]
      rw [if_neg (by omega : ¬ fs.index.length ≤ maxS)]
      rw [hids]
    have h2 : fileEnforceLimit fs maxS =
        fileDeleteLoop fs (((sortBy ascByUpd fs.index).take (fs.index.length - maxS)).map
          SessionMeta.sessionId) := by
      simp only [fileEnforceLimit]
      rw [if_neg (by omega : ¬ fs.index.length ≤ maxS)]
    rw [h1, h2]
    exact rel_deleteLoop _ rs fs h hnonempty

theorem rel_getToolCalls {rs fs t} (h : StoreRel rs fs t) (sid : String) :
    redisGetToolCalls rs sid = fileGetToolCalls fs sid := by
  cases hfind : fs.index.find? (fun m => sid == m.sessionId) with
  | none =>
      have hfnone : List.lookup sid fs.files = none := by
        apply isSome_false_eq_none
        rw [h.filesDom sid, hfind]
        rfl
      rw [redisGetToolCalls, h.toolDom sid hfind, fileGetToolCalls, hfnone]
      rfl
  | some m =>
      have hmmem : m ∈ fs.index := List.mem_of_find?_eq_some hfind
      have hmsid : m.sessionId = sid := by
        have := List.find?_some hfind
        exact (beq_iff_eq.mp this).symm
      have hcontent := h.filesContent m hmmem
      rw [hmsid] at hcontent
      rw [fileGetToolCalls, hcontent, Option.getD_some, toolEventsOf_canonical]
      rfl

theorem rel_appendToolCall {rs fs t} (h : StoreRel rs fs t) (sid : String)
    (tc : ToolCallRec) (hex : (List.lookup sid rs.kv).isSome = true) :
    StoreRel (redisAppendToolCall rs sid tc) (fileAppendToolCall fs sid tc) t := by
  have hfindSome : (fs.index.find? (fun m => sid == m.sessionId)).isSome = true := by
    rw [← rel_lookup_kv h sid]; exact hex
  cases hfind : fs.index.find? (fun m => sid == m.sessionId) with
  | none => rw [hfind] at hfindSome; cases hfindSome
  | some m =>
  have hmmem : m ∈ fs.index := List.mem_of_find?_eq_some hfind
  have hmsid : m.sessionId = sid := by
    have := List.find?_some hfind
    exact (beq_iff_eq.mp this).symm
  have hcontent := h.filesContent m hmmem
  rw [hmsid] at hcontent
  have hfnew : fileAppendToolCall fs sid tc =
      FileState.mk fs.index (kvSet fs.files sid
        ((FileEvent.metaEv m ::
          ((List.lookup sid rs.toolLists).getD []).map FileEvent.toolEv) ++
          [FileEvent.toolEv tc])) := by
    simp only [fileAppendToolCall, fileAppend, hcontent, Option.getD_some]
  have hrnew : redisAppendToolCall rs sid tc =
      RedisState.mk rs.kv rs.zset (kvSet rs.toolLists sid
        (((List.lookup sid rs.toolLists).getD []) ++ [tc])) := rfl
  rw [hfnew, hrnew]
  refine ⟨h.kvEq, h.zsetEq, h.sidsNodup, h.updsNodup, h.updsLt, h.sidsNE, ?_, ?_, ?_⟩
  · intro s
    by_cases hs : s = sid
    · subst hs
      rw [lookup_of_kvSet_self, hfind]
      rfl
    · rw [lookup_of_kvSet_other sid s _ hs]
      exact h.filesDom s
  · intro x hx
    by_cases hxs : x.sessionId = sid
    · have hxm : x = m := by
        have hfx := find?_mem_unique x fs.index h.sidsNodup hx
        rw [hxs] at hfx
        rw [hfind] at hfx
        exact (Option.some_inj.mp hfx).symm
      subst hxm
      rw [hmsid, lookup_of_kvSet_self, lookup_of_kvSet_self]
      simp [List.map_append]
    · rw [lookup_of_kvSet_other sid x.sessionId _ hxs,
        lookup_of_kvSet_other sid x.sessionId _ hxs]
      exact h.filesContent x hx
  · intro s hs
    have hss : s ≠ sid := by
      intro he
      rw [he] at hs
      have hs2 : fs.index.find? (fun m => sid == m.sessionId) = none := hs
      rw [hfind] at hs2
      cases hs2
    show List.lookup s (kvSet rs.toolLists sid
      (((List.lookup sid rs.toolLists).getD []) ++ [tc])) = none
    rw [lookup_of_kvSet_other sid s _ hss]
    exact h.toolDom s hs

/-! ### The two backends agree on every operation, along well-formed runs -/

theorem rel_step {rs fs t} (h : StoreRel rs fs t) (op : StoreOp)
    (hwf : wfOp rs op = true) :
    StoreRel (redisStep rs t op).1 (fileStep fs t op).1 (t + 1) ∧
    (redisStep rs t op).2 = (fileStep fs t op).2 := by
  cases op with
  | createSessionOp sid title =>
      simp only [wfOp, Bool.and_eq_true, Bool.not_eq_true'] at hwf
      simp only [redisStep, fileStep]
      have hne : sid ≠ "" := by
        intro he
        have h1 := hwf.1
        rw [he] at h1
        have h2 : ("" : String).isEmpty = true := (String.isEmpty_iff "").mpr rfl
        rw [h1] at h2
        cases h2
      have hfresh : fs.index.find? (fun m => sid == m.sessionId) = none := by
        rw [← rel_lookup_kv h sid]
        exact isSome_false_eq_none hwf.2
      have hc := rel_create h sid title hne hfresh
      exact ⟨hc.1, congrArg StoreObs.metaObs hc.2⟩
  | getSessionOp sid =>
      exact ⟨storeRel_mono_t h, congrArg StoreObs.optMetaObs (rel_getSession h sid)⟩
  | listSessionsOp limit =>
      simp only [wfOp] at hwf
      exact ⟨storeRel_mono_t h,
        congrArg StoreObs.metasObs (rel_list h limit (of_decide_eq_true hwf))⟩
  | updateSessionOp sid ti pv mc =>
      have hu := rel_update h sid ti pv mc
      exact ⟨hu.1, congrArg StoreObs.optMetaObs hu.2⟩
  | deleteSessionOp sid =>
      have hd := rel_delete h sid
      exact ⟨storeRel_mono_t hd.1, congrArg StoreObs.boolObs hd.2⟩
  | sessionExistsOp sid =>
      exact ⟨storeRel_mono_t h, congrArg StoreObs.boolObs (rel_exists h sid)⟩
  | getSessionCountOp =>
      refine ⟨storeRel_mono_t h, congrArg StoreObs.natObs ?_⟩
      rw [h.zsetEq, List.length_map]
  | enforceLimitOp maxS =>
      have he := rel_enforce h maxS
      exact ⟨storeRel_mono_t he.1, congrArg StoreObs.idsObs he.2⟩
  | renameSessionOp sid title =>
      have hu := rel_update h sid (some title) none none
      refine ⟨hu.1, ?_⟩
      show StoreObs.boolObs (redisUpdateSession rs t sid (some title) none none).2.isSome = _
      rw [hu.2]
      rfl
  | appendToolCallOp sid tc =>
      simp only [wfOp] at hwf
      exact ⟨storeRel_mono_t (rel_appendToolCall h sid tc hwf), rfl⟩
  | getToolCallsOp sid =>
      exact ⟨storeRel_mono_t h, congrArg StoreObs.toolCallsObs (rel_getToolCalls h sid)⟩
  | closeOp => exact ⟨storeRel_mono_t h, rfl⟩

theorem redisRun_eq_fileRun : ∀ (ops : List StoreOp) (rs : RedisState) (fs : FileState)
    (t : Nat), StoreRel rs fs t → wfOpsFrom rs t ops = true →
    redisRun rs t ops = fileRun fs t ops := by
  intro ops
  induction ops with
  | nil => intro rs fs t _ _; rfl
  | cons op rest ih =>
      intro rs fs t h hwf
      simp only [wfOpsFrom, Bool.and_eq_true] at hwf
      have hstep := rel_step h op hwf.1
      simp only [redisRun, fileRun]
      rw [hstep.2, ih (redisStep rs t op).1 (fileStep fs t op).1 (t + 1) hstep.1 hwf.2]

/-- The last observation of a run, when it is a `list_sessions` result, as an
entry count. -/
def listedCount (obs : List StoreObs) : Option Nat :=
  match obs.getLast? with
  | some (.metasObs l) => some l.length
  | _ => none

/-- C9 (counterexample to the claim as stated): creating the same session id
twice and then listing gives different externally observable results on the
two backends — the Redis backend's `SET`+`ZADD` overwrite leaves one listed
entry, while the file backend appends a second index line and lists two
entries for the same id. -/
theorem store_backends_double_create_counterexample :
    listedCount (redisRun emptyRedis 0
      [StoreOp.createSessionOp "s" "New Chat", StoreOp.createSessionOp "s" "New Chat",
       StoreOp.listSessionsOp 10]) = some 1 ∧
    listedCount (fileRun emptyFile 0
      [StoreOp.createSessionOp "s" "New Chat", StoreOp.createSessionOp "s" "New Chat",
       StoreOp.listSessionsOp 10]) = some 2 ∧
    redisRun emptyRedis 0
      [StoreOp.createSessionOp "s" "New Chat", StoreOp.createSessionOp "s" "New Chat",
       StoreOp.listSessionsOp 10] ≠
    fileRun emptyFile 0
      [StoreOp.createSessionOp "s" "New Chat", StoreOp.createSessionOp "s" "New Chat",
       StoreOp.listSessionsOp 10] := by
  refine ⟨rfl, rfl, by decide⟩

/-- C9 (amended): under well-formed usage — every `create_session` uses a
fresh non-empty session id, every `append_tool_call` targets an existing
session, every `list_sessions` limit is positive — the Redis-backed and
file-backed stores return identical externally observable results for every
operation sequence run from their empty initial states (with the shared
operation clock standing for timestamps, so "up to timestamp values" is
literal equality here).  This subsumes `session_exists` agreeing with
`get_session` on both backends. -/
theorem store_backends_equivalent (ops : List StoreOp)
    (hwf : wfOpsFrom emptyRedis 0 ops = true) :
    redisRun emptyRedis 0 ops = fileRun emptyFile 0 ops :=
  redisRun_eq_fileRun ops emptyRedis emptyFile 0 storeRel_empty hwf

/-- C9 witness: the equivalence applied to a concrete run exercising every
operation of the contract. -/
theorem store_backends_equivalent_witness :
    wfOpsFrom emptyRedis 0
      [StoreOp.createSessionOp "a" "New Chat", StoreOp.createSessionOp "b" "New Chat",
       StoreOp.updateSessionOp "a" none (some "preview text") (some 2),
       StoreOp.listSessionsOp 10, StoreOp.sessionExistsOp "a", StoreOp.getSessionOp "b",
       StoreOp.appendToolCallOp "a"
         { id := "t1", name := "kubectl", arguments := "{}", status := "complete",
           output := "ok", error := "" },
       StoreOp.getToolCallsOp "a", StoreOp.getSessionCountOp,
       StoreOp.renameSessionOp "b" "renamed", StoreOp.deleteSessionOp "b",
       StoreOp.enforceLimitOp 1, StoreOp.getToolCallsOp "zzz", StoreOp.closeOp] = true ∧
    redisRun emptyRedis 0
      [StoreOp.createSessionOp "a" "New Chat", StoreOp.createSessionOp "b" "New Chat",
       StoreOp.updateSessionOp "a" none (some "preview text") (some 2),
       StoreOp.listSessionsOp 10, StoreOp.sessionExistsOp "a", StoreOp.getSessionOp "b",
       StoreOp.appendToolCallOp "a"
         { id := "t1", name := "kubectl", arguments := "{}", status := "complete",
           output := "ok", error := "" },
       StoreOp.getToolCallsOp "a", StoreOp.getSessionCountOp,
       StoreOp.renameSessionOp "b" "renamed", StoreOp.deleteSessionOp "b",
       StoreOp.enforceLimitOp 1, StoreOp.getToolCallsOp "zzz", StoreOp.closeOp] =
    fileRun emptyFile 0
      [StoreOp.createSessionOp "a" "New Chat", StoreOp.createSessionOp "b" "New Chat",
       StoreOp.updateSessionOp "a" none (some "preview text") (some 2),
       StoreOp.listSessionsOp 10, StoreOp.sessionExistsOp "a", StoreOp.getSessionOp "b",
       StoreOp.appendToolCallOp "a"
         { id := "t1", name := "kubectl", arguments := "{}", status := "complete",
           output := "ok", error := "" },
       StoreOp.getToolCallsOp "a", StoreOp.getSessionCountOp,
       StoreOp.renameSessionOp "b" "renamed", StoreOp.deleteSessionOp "b",
       StoreOp.enforceLimitOp 1, StoreOp.getToolCallsOp "zzz", StoreOp.closeOp] := by
  refine ⟨by decide, store_backends_equivalent _ (by decide)⟩

/-! ### C5 — eviction of the oldest sessions -/

theorem foldrMax_bound :
    ∀ l : List SessionMeta, ∀ m ∈ l,
      m.updatedAt ≤ l.foldr (fun x acc => max x.updatedAt acc) 0 := by
  intro l
  induction l with
  | nil => intro m hm; exact absurd hm (List.not_mem_nil m)
  | cons x xs ih =>
      intro m hm
      rcases List.mem_cons.mp hm with rfl | hm'
      · exact le_max_left _ _
      · exact le_trans (ih m hm') (le_max_right _ _)

/-- Deleting, in order, the ids of a distinct-id prefix of the index removes
exactly that prefix and reports exactly those ids. -/
theorem fileDeleteLoop_prefix :
    ∀ (pre suf : List SessionMeta) (files : List (String × List FileEvent)),
      (pre ++ suf).Pairwise (fun a b => a.sessionId ≠ b.sessionId) →
      (∀ m ∈ pre, m.sessionId ≠ "") →
      (fileDeleteLoop (FileState.mk (pre ++ suf) files)
        (pre.map SessionMeta.sessionId)).1.index = suf ∧
      (fileDeleteLoop (FileState.mk (pre ++ suf) files)
        (pre.map SessionMeta.sessionId)).2 = pre.map SessionMeta.sessionId := by
  intro pre
  induction pre with
  | nil => intro suf files _ _; exact ⟨rfl, rfl⟩
  | cons m pre' ih =>
      intro suf files hpw hne
      have hmne : m.sessionId ≠ "" := hne m (List.mem_cons_self m pre')
      have hmE : m.sessionId.isEmpty = false := by
        cases hh : m.sessionId.isEmpty
        · rfl
        · exact absurd ((String.isEmpty_iff m.sessionId).mp hh) hmne
      have hpw' : (m :: (pre' ++ suf)).Pairwise
          (fun a b => a.sessionId ≠ b.sessionId) := by
        rw [← List.cons_append]; exact hpw
      rcases List.pairwise_cons.mp hpw' with ⟨hhead, htail⟩
      have hothers : ∀ x ∈ pre' ++ suf, ¬(x.sessionId == m.sessionId) = true := by
        intro x hx hb
        exact hhead x hx ((beq_iff_eq.mp hb).symm)
      have hfilter : (pre' ++ suf).filter (fun x => !(x.sessionId == m.sessionId)) =
          pre' ++ suf := by
        apply List.filter_eq_self.mpr
        intro x hx
        cases hb : (x.sessionId == m.sessionId)
        · rfl
        · exact absurd hb (hothers x hx)
      have hfilter2 : ((m :: pre') ++ suf).filter
          (fun x => !(x.sessionId == m.sessionId)) = pre' ++ suf := by
        rw [List.cons_append, List.filter_cons]
        have : (!(m.sessionId == m.sessionId)) = false := by simp
        rw [this]
        simp only [Bool.false_eq_true, if_false]
        exact hfilter
      have hlenne : ¬ ((pre' ++ suf).length == ((m :: pre') ++ suf).length) = true := by
        simp only [beq_iff_eq, List.cons_append, List.length_cons]
        omega
      have hdel : fileDeleteSession (FileState.mk ((m :: pre') ++ suf) files) m.sessionId =
          (FileState.mk (pre' ++ suf) (kvRemove files m.sessionId), true) := by
        simp only [fileDeleteSession, hfilter2]
        rw [if_neg hlenne]
      have hloop := ih suf (kvRemove files m.sessionId) htail
        (fun x hx => hne x (List.mem_cons_of_mem m hx))
      simp only [List.map_cons, fileDeleteLoop, hmE, Bool.false_eq_true, if_false, hdel]
      simp only [if_true]
      exact ⟨hloop.1, by rw [hloop.2]⟩

/-- The canonical store states holding exactly the sessions of `metas`. -/
def fileOf (metas : List SessionMeta) : FileState :=
  FileState.mk metas (metas.map (fun m => (m.sessionId, [FileEvent.metaEv m])))

def redisOf (metas : List SessionMeta) : RedisState :=
  RedisState.mk (metas.map pairOfMeta) (metas.map zentryOfMeta) []

/-- The canonical states are related at any time bounding the timestamps. -/
theorem storeRel_of_metas (metas : List SessionMeta)
    (hsids : metas.Pairwise (fun a b => a.sessionId ≠ b.sessionId))
    (hasc : metas.Pairwise (fun a b => a.updatedAt < b.updatedAt))
    (hne : ∀ m ∈ metas, m.sessionId ≠ "") :
    StoreRel (redisOf metas) (fileOf metas)
      (metas.foldr (fun x acc => max x.updatedAt acc) 0 + 1) := by
  refine ⟨rfl, rfl, hsids, hasc.imp (fun hab => Nat.ne_of_lt hab), ?_, hne, ?_, ?_, ?_⟩
  · intro m hm
    exact Nat.lt_succ_of_le (foldrMax_bound metas m hm)
  · intro s
    show (List.lookup s (metas.map (fun m => (m.sessionId, [FileEvent.metaEv m])))).isSome =
      (metas.find? (fun m => s == m.sessionId)).isSome
    rw [lookup_keyed (fun m => [FileEvent.metaEv m]) s metas]
    cases metas.find? (fun m => s == m.sessionId) <;> rfl
  · intro m hm
    show List.lookup m.sessionId (metas.map (fun x => (x.sessionId, [FileEvent.metaEv x]))) = _
    rw [lookup_keyed (fun x => [FileEvent.metaEv x]) m.sessionId metas,
      find?_mem_unique m metas hsids hm]
    rfl
  · intro s _
    rfl

/-- C5 (counterexample to the claim as stated, at `N = 101`): a file store
holding 104 sessions created in increasing `updated_at` order; after
`enforce_session_limit(101)` deletes the 3 oldest, `list_sessions(100)`
returns 100 entries, not `N = 101` — the fixed listing limit caps the
result. -/
theorem enforce_then_list_counterexample :
    (fileEnforceLimit (FileState.mk ((List.range 104).map
        (fun i => mkNewMeta ("s" ++ toString i) "New Chat" i)) []) 101).2.length = 3 ∧
    (fileListSessions (fileEnforceLimit (FileState.mk ((List.range 104).map
        (fun i => mkNewMeta ("s" ++ toString i) "New Chat" i)) []) 101).1 100).length = 100 ∧
    ¬ ((fileListSessions (fileEnforceLimit (FileState.mk ((List.range 104).map
        (fun i => mkNewMeta ("s" ++ toString i) "New Chat" i)) []) 101).1 100).length =
      101) := by
  refine ⟨rfl, rfl, by decide⟩

/-- C5 (amended, proved): for every store holding `N + 3` sessions created in
increasing `updated_at` order, with `N ≤ 100` so that the fixed listing limit
covers the survivors, `enforce_session_limit(N)` deletes exactly the 3 oldest
sessions and returns exactly their ids, and `list_sessions(100)` afterwards
returns exactly the `N` surviving sessions sorted descending by `updated_at` —
on both the file-backed and the Redis-backed store. -/
theorem enforce_and_list_contract (metas : List SessionMeta) (N : Nat)
    (hlen : metas.length = N + 3) (hNle : N ≤ 100)
    (hsids : metas.Pairwise (fun a b => a.sessionId ≠ b.sessionId))
    (hasc : metas.Pairwise (fun a b => a.updatedAt < b.updatedAt))
    (hne : ∀ m ∈ metas, m.sessionId ≠ "") :
    (fileEnforceLimit (fileOf metas) N).2 = (metas.take 3).map SessionMeta.sessionId ∧
    (redisEnforceLimit (redisOf metas) N).2 = (metas.take 3).map SessionMeta.sessionId ∧
    fileListSessions (fileEnforceLimit (fileOf metas) N).1 100 = (metas.drop 3).reverse ∧
    redisListSessions (redisEnforceLimit (redisOf metas) N).1 100 = (metas.drop 3).reverse ∧
    ((metas.drop 3).reverse).length = N ∧
    ((metas.drop 3).reverse).Pairwise (fun a b => b.updatedAt < a.updatedAt) := by
  have hrel := storeRel_of_metas metas hsids hasc hne
  have henf := rel_enforce hrel N
  have hgt : ¬ ((fileOf metas).index.length ≤ N) := by
    show ¬ (metas.length ≤ N)
    omega
  have hsorted : sortBy ascByUpd metas = metas :=
    sortBy_eq_self ascByUpd metas (hasc.imp (fun hab => decide_eq_true (Nat.le_of_lt hab)))
  have hfe : fileEnforceLimit (fileOf metas) N =
      fileDeleteLoop (fileOf metas) ((metas.take 3).map SessionMeta.sessionId) := by
    simp only [fileEnforceLimit]
    rw [if_neg hgt]
    show fileDeleteLoop (fileOf metas)
        (((sortBy ascByUpd metas).take (metas.length - N)).map SessionMeta.sessionId) =
      fileDeleteLoop (fileOf metas) ((metas.take 3).map SessionMeta.sessionId)
    rw [hsorted, show metas.length - N = 3 by omega]
  have hsplit : metas.take 3 ++ metas.drop 3 = metas := List.take_append_drop 3 metas
  have hpw : (metas.take 3 ++ metas.drop 3).Pairwise
      (fun a b => a.sessionId ≠ b.sessionId) := by rw [hsplit]; exact hsids
  have hneTake : ∀ m ∈ metas.take 3, m.sessionId ≠ "" :=
    fun m hm => hne m ((List.take_sublist 3 metas).mem hm)
  obtain ⟨hIdx, hIds⟩ := fileDeleteLoop_prefix (metas.take 3) (metas.drop 3)
    (fileOf metas).files hpw hneTake
  rw [hsplit] at hIdx hIds
  have hstate : FileState.mk metas (fileOf metas).files = fileOf metas := rfl
  rw [hstate] at hIdx hIds
  have hfIds : (fileEnforceLimit (fileOf metas) N).2 =
      (metas.take 3).map SessionMeta.sessionId := by rw [hfe]; exact hIds
  have hfIdx : (fileEnforceLimit (fileOf metas) N).1.index = metas.drop 3 := by
    rw [hfe]; exact hIdx
  have hD : (metas.drop 3).Pairwise (fun a b => a.updatedAt < b.updatedAt) :=
    hasc.sublist (List.drop_sublist 3 metas)
  have hrevDesc : ((metas.drop 3).reverse).Pairwise
      (fun a b => b.updatedAt < a.updatedAt) := List.pairwise_reverse.mpr hD
  have hsortD : sortBy descByUpd (metas.drop 3) = (metas.drop 3).reverse := by
    apply eq_of_perm_of_strict_sorted_desc SessionMeta.updatedAt
    · exact (perm_sortBy descByUpd (metas.drop 3)).trans
        (List.reverse_perm (metas.drop 3)).symm
    · have hle := sortBy_pairwise descByUpd descByUpd_total descByUpd_trans (metas.drop 3)
      have hperm := perm_sortBy descByUpd (metas.drop 3)
      have hneD : (sortBy descByUpd (metas.drop 3)).Pairwise
          (fun a b => a.updatedAt ≠ b.updatedAt) :=
        (hperm.pairwise_iff (fun hab => hab.symm)).mpr
          (hD.imp (fun hab => Nat.ne_of_lt hab))
      exact (hle.and hneD).imp (fun hab => by
        have h1 := of_decide_eq_true hab.1
        omega)
    · exact hrevDesc
  have hlenD : (metas.drop 3).length = N := by
    rw [List.length_drop]
    omega
  have hfl : fileListSessions (fileEnforceLimit (fileOf metas) N).1 100 =
      (metas.drop 3).reverse := by
    show (sortBy descByUpd (fileEnforceLimit (fileOf metas) N).1.index).take 100 =
      (metas.drop 3).reverse
    rw [hfIdx, hsortD]
    apply List.take_of_length_le
    rw [List.length_reverse, hlenD]
    exact hNle
  have hrIds : (redisEnforceLimit (redisOf metas) N).2 =
      (metas.take 3).map SessionMeta.sessionId := by
    rw [henf.2]; exact hfIds
  have hrl : redisListSessions (redisEnforceLimit (redisOf metas) N).1 100 =
      (metas.drop 3).reverse := by
    rw [rel_list henf.1 100 (by omega)]
    exact hfl
  exact ⟨hfIds, hrIds, hfl, hrl, by rw [List.length_reverse]; exact hlenD, hrevDesc⟩

theorem enforce_and_list_contract_witness :
    (fileEnforceLimit (fileOf ((List.range 5).map
        (fun i => mkNewMeta ("s" ++ toString i) "New Chat" i))) 2).2 =
      ["s0", "s1", "s2"] ∧
    redisListSessions (redisEnforceLimit (redisOf ((List.range 5).map
        (fun i => mkNewMeta ("s" ++ toString i) "New Chat" i))) 2).1 100 =
      [mkNewMeta "s4" "New Chat" 4, mkNewMeta "s3" "New Chat" 3] := by
  have h := enforce_and_list_contract ((List.range 5).map
      (fun i => mkNewMeta ("s" ++ toString i) "New Chat" i)) 2
    (by decide) (by decide) (by decide) (by decide) (by decide)
  refine ⟨?_, ?_⟩
  · rw [h.1]; decide
  · rw [h.2.2.2.1]; decide

end K8sOps
